import Mathlib

/-!
Verification of the task-orchestration core specified for the
d6tflow-binder-interactive repository.

The repository itself contains only two example notebooks (client code of the
third-party d6tflow engine).  The specification reconstructs, at design level,
the minimal orchestration core implied by those notebooks: parameter-based task
identity, an artifact store, a dependency resolver, a completeness checker, a
topological scheduler with a failure policy, a cascading reset manager and a
multi-strategy coordinator.  Sections 1-7 below model that core from the
specification text; the final section embeds the two run procedures that do
appear in the notebooks (ModelTrain.run and TradingSignals.run).
-/

namespace D6t

/-- Modelled from the spec: a Task Instance identity is the pair of the task
name and its sorted parameter-name to serialized-value mapping
(section 3, "Task Instance").  The engine holding this datatype is not in the
repository; the definition follows the spec's words. -/
structure TaskInstance where
  name : String
  params : List (String × String)
deriving DecidableEq

/-- Modelled from the spec: an Artifact is keyed by (task instance identity,
output name) (section 3, "Artifact"). -/
structure ArtifactKey where
  inst : TaskInstance
  output : String
deriving DecidableEq

/-- Modelled from the spec: a persisted artifact together with the result of
the store-level validity probe (section 4.2). -/
structure Artifact where
  key : ArtifactKey
  valid : Bool
deriving DecidableEq

/-- Modelled from the spec: the Artifact Store, content-addressed persistence
keyed by (task-name, parameter-set, output-name) (section 2). -/
abbrev Store := List Artifact

/-- Modelled from the spec: the store backend operation exists(key) -> bool;
an artifact counts only when it passes the store-level validity check. -/
def storeExists (s : Store) (k : ArtifactKey) : Bool :=
  s.any (fun a => decide (a.key = k) && a.valid)

/-- Modelled from the spec: write(key, value) commits a valid artifact
(section 5: a write either fully commits a valid artifact or leaves none). -/
def storeWrite (s : Store) (k : ArtifactKey) : Store :=
  ⟨k, true⟩ :: s

/-- Modelled from the spec: a Task Graph Node of the resolved graph: a task
instance, its resolved upstream instances, and its declared output names
(sections 3 and 4.1). -/
structure GNode where
  inst : TaskInstance
  deps : List TaskInstance
  outputs : List String
deriving DecidableEq

/-- The instances of the nodes of a resolved graph. -/
def instsOf (g : List GNode) : List TaskInstance := g.map GNode.inst

/-- Modelled from the spec: the Completeness Checker queries the store for
every declared output under the instance's identity and returns complete only
if all outputs exist and pass the validity probe (section 4.2). -/
def nodeComplete (s : Store) (n : GNode) : Bool :=
  n.outputs.all (fun o => storeExists s ⟨n.inst, o⟩)

/-- A graph is in topological order when every dependency of every node occurs
strictly earlier in the node list (section 4.3, topological traversal). -/
def topoOK (seen : List TaskInstance) : List GNode → Bool
  | [] => true
  | n :: rest =>
    n.deps.all (fun u => decide (u ∈ seen)) && topoOK (n.inst :: seen) rest

/-- Modelled from the spec: the per-node outcome recorded in a Run Record
(section 4.3: already-complete / ran-successfully / failed /
skipped-due-to-upstream-failure). -/
inductive NodeStatus where
  | alreadyComplete
  | ran
  | failed
  | skippedUpstreamFailed
deriving DecidableEq

/-- Modelled from the spec: the Run Record of one scheduling pass. -/
abbrev RunRecord := List (TaskInstance × NodeStatus)

/-- A successful run procedure persists all declared outputs of its node via
the Artifact Store (section 4.3, step 3). -/
def writeOutputs (s : Store) (n : GNode) : Store :=
  n.outputs.foldl (fun acc o => storeWrite acc ⟨n.inst, o⟩) s

/-- Modelled from the spec: the Scheduler/Executor (section 4.3).  It walks
the resolved graph in topological order.  Each node is skipped when already
complete; a node in the downstream cone of a failure is never started
(section 5: a failed node's descendants are never started); otherwise its run
procedure runs, abstracted by `beh` (true = produces all declared outputs,
false = raises).  The third component accumulates the instances known to be a
failed node or a transitive dependent of one. -/
def depBlocked (cone : List TaskInstance) (n : GNode) : Bool :=
  n.deps.any (fun u => decide (u ∈ cone))

def execAux (beh : TaskInstance → Bool) :
    List GNode → Store → RunRecord → List TaskInstance →
    Store × RunRecord × List TaskInstance
  | [], s, rcd, cone => (s, rcd, cone)
  | n :: rest, s, rcd, cone =>
    if nodeComplete s n then
      execAux beh rest s (rcd ++ [(n.inst, .alreadyComplete)])
        (if depBlocked cone n then n.inst :: cone else cone)
    else if depBlocked cone n then
      execAux beh rest s (rcd ++ [(n.inst, .skippedUpstreamFailed)]) (n.inst :: cone)
    else if beh n.inst then
      execAux beh rest (writeOutputs s n) (rcd ++ [(n.inst, .ran)]) cone
    else
      execAux beh rest s (rcd ++ [(n.inst, .failed)]) (n.inst :: cone)

/-- Modelled from the spec: one scheduling pass over a resolved graph
(section 4.3), returning the final store, the Run Record and the failure
cone. -/
def execGraph (beh : TaskInstance → Bool) (g : List GNode) (s : Store) :
    Store × RunRecord × List TaskInstance :=
  execAux beh g s [] []

/-- Count of "ran" entries for one instance in a Run Record. -/
def ranCount (rcd : RunRecord) (i : TaskInstance) : Nat :=
  (rcd.filter (fun e => decide (e.1 = i) && decide (e.2 = NodeStatus.ran))).length

/-! ### Basic store lemmas -/

theorem storeExists_iff (s : Store) (k : ArtifactKey) :
    storeExists s k = true ↔ ∃ a ∈ s, a.key = k ∧ a.valid = true := by
  simp [storeExists, List.any_eq_true, and_assoc]

theorem storeExists_write_self (s : Store) (k : ArtifactKey) :
    storeExists (storeWrite s k) k = true := by
  simp [storeExists, storeWrite]

theorem storeExists_write_mono {s : Store} {k : ArtifactKey} (k' : ArtifactKey)
    (h : storeExists s k = true) : storeExists (storeWrite s k') k = true := by
  simp [storeExists, storeWrite] at h ⊢
  exact Or.inr h

theorem storeExists_write_other {s : Store} {k k' : ArtifactKey} (h : k' ≠ k) :
    storeExists (storeWrite s k') k = storeExists s k := by
  simp [storeExists, storeWrite, h]

theorem storeExists_writeOutputs_mono {s : Store} {k : ArtifactKey} (n : GNode)
    (h : storeExists s k = true) : storeExists (writeOutputs s n) k = true := by
  unfold writeOutputs
  induction n.outputs generalizing s with
  | nil => exact h
  | cons o os ih => exact ih (storeExists_write_mono _ h)

theorem storeExists_writeOutputs_other {s : Store} {x : TaskInstance} {o : String}
    (n : GNode) (h : x ≠ n.inst) :
    storeExists (writeOutputs s n) ⟨x, o⟩ = storeExists s ⟨x, o⟩ := by
  unfold writeOutputs
  induction n.outputs generalizing s with
  | nil => rfl
  | cons p ps ih =>
    rw [List.foldl_cons, ih, storeExists_write_other]
    intro hk
    exact h (congrArg ArtifactKey.inst hk).symm

theorem nodeComplete_mono {s s' : Store} {n : GNode}
    (hmono : ∀ k, storeExists s k = true → storeExists s' k = true)
    (h : nodeComplete s n = true) : nodeComplete s' n = true := by
  simp only [nodeComplete, List.all_eq_true] at h ⊢
  exact fun o ho => hmono _ (h o ho)

theorem storeExists_foldl_mono (f : String → ArtifactKey) (os : List String)
    {s : Store} {k : ArtifactKey} (h : storeExists s k = true) :
    storeExists (os.foldl (fun acc o => storeWrite acc (f o)) s) k = true := by
  induction os generalizing s with
  | nil => exact h
  | cons o os ih => exact ih (storeExists_write_mono _ h)

theorem nodeComplete_writeOutputs_self (s : Store) (n : GNode) :
    nodeComplete (writeOutputs s n) n = true := by
  simp only [nodeComplete, List.all_eq_true]
  intro o ho
  rcases List.append_of_mem ho with ⟨l1, l2, hsplit⟩
  unfold writeOutputs
  rw [hsplit, List.foldl_append, List.foldl_cons]
  exact storeExists_foldl_mono _ l2 (storeExists_write_self _ ⟨n.inst, o⟩)

theorem nodeComplete_congr {s : Store} {n m : GNode}
    (hi : n.inst = m.inst) (ho : n.outputs = m.outputs) :
    nodeComplete s n = nodeComplete s m := by
  simp [nodeComplete, hi, ho]

theorem nodeComplete_ext {s s₂ : Store} {n : GNode}
    (hsame : ∀ o ∈ n.outputs, storeExists s₂ ⟨n.inst, o⟩ = storeExists s ⟨n.inst, o⟩) :
    nodeComplete s₂ n = nodeComplete s n := by
  rw [Bool.eq_iff_iff]
  simp only [nodeComplete, List.all_eq_true]
  constructor
  · intro h o ho
    rw [← hsame o ho]
    exact h o ho
  · intro h o ho
    rw [hsame o ho]
    exact h o ho

/-! ### Generic executor lemmas -/

theorem execAux_branches (beh : TaskInstance → Bool) (n : GNode) (rest : List GNode)
    (s : Store) (rcd : RunRecord) (cone : List TaskInstance) :
    (nodeComplete s n = true ∧
      execAux beh (n :: rest) s rcd cone =
        execAux beh rest s (rcd ++ [(n.inst, .alreadyComplete)])
          (if depBlocked cone n then n.inst :: cone else cone)) ∨
    (nodeComplete s n = false ∧ depBlocked cone n = true ∧
      execAux beh (n :: rest) s rcd cone =
        execAux beh rest s (rcd ++ [(n.inst, .skippedUpstreamFailed)]) (n.inst :: cone)) ∨
    (nodeComplete s n = false ∧ depBlocked cone n = false ∧ beh n.inst = true ∧
      execAux beh (n :: rest) s rcd cone =
        execAux beh rest (writeOutputs s n) (rcd ++ [(n.inst, .ran)]) cone) ∨
    (nodeComplete s n = false ∧ depBlocked cone n = false ∧ beh n.inst = false ∧
      execAux beh (n :: rest) s rcd cone =
        execAux beh rest s (rcd ++ [(n.inst, .failed)]) (n.inst :: cone)) := by
  by_cases h1 : nodeComplete s n = true
  · exact Or.inl ⟨h1, by simp only [execAux, h1, if_true]⟩
  · replace h1 := Bool.not_eq_true _ ▸ h1
    by_cases h2 : depBlocked cone n = true
    · exact Or.inr (Or.inl ⟨h1, h2, by simp only [execAux, h1, h2, Bool.false_eq_true,
        if_false, if_true]⟩)
    · replace h2 := Bool.not_eq_true _ ▸ h2
      by_cases h3 : beh n.inst = true
      · exact Or.inr (Or.inr (Or.inl ⟨h1, h2, h3, by simp only [execAux, h1, h2, h3,
          Bool.false_eq_true, if_false, if_true]⟩))
      · replace h3 := Bool.not_eq_true _ ▸ h3
        exact Or.inr (Or.inr (Or.inr ⟨h1, h2, h3, by simp only [execAux, h1, h2, h3,
          Bool.false_eq_true, if_false]⟩))

theorem exec_store_mono (beh : TaskInstance → Bool) :
    ∀ (l : List GNode) (s : Store) (rcd : RunRecord) (cone : List TaskInstance)
      (k : ArtifactKey), storeExists s k = true →
      storeExists (execAux beh l s rcd cone).1 k = true := by
  intro l
  induction l with
  | nil => intro s rcd cone k h; simpa [execAux] using h
  | cons n rest ih =>
    intro s rcd cone k h
    rcases execAux_branches beh n rest s rcd cone with
      ⟨_, he⟩ | ⟨_, _, he⟩ | ⟨_, _, _, he⟩ | ⟨_, _, _, he⟩ <;> rw [he]
    · exact ih _ _ _ _ h
    · exact ih _ _ _ _ h
    · exact ih _ _ _ _ (storeExists_writeOutputs_mono n h)
    · exact ih _ _ _ _ h

theorem exec_nodeComplete_mono (beh : TaskInstance → Bool)
    (l : List GNode) (s : Store) (rcd : RunRecord) (cone : List TaskInstance)
    {n : GNode} (h : nodeComplete s n = true) :
    nodeComplete (execAux beh l s rcd cone).1 n = true :=
  nodeComplete_mono (fun k hk => exec_store_mono beh l s rcd cone k hk) h

theorem exec_rcd_mono (beh : TaskInstance → Bool) :
    ∀ (l : List GNode) (s : Store) (rcd : RunRecord) (cone : List TaskInstance)
      (e : TaskInstance × NodeStatus), e ∈ rcd →
      e ∈ (execAux beh l s rcd cone).2.1 := by
  intro l
  induction l with
  | nil => intro s rcd cone e h; simpa [execAux] using h
  | cons n rest ih =>
    intro s rcd cone e h
    rcases execAux_branches beh n rest s rcd cone with
      ⟨_, he⟩ | ⟨_, _, he⟩ | ⟨_, _, _, he⟩ | ⟨_, _, _, he⟩ <;> rw [he]
    all_goals exact ih _ _ _ _ (List.mem_append_left _ h)

theorem exec_cone_mono (beh : TaskInstance → Bool) :
    ∀ (l : List GNode) (s : Store) (rcd : RunRecord) (cone : List TaskInstance)
      (x : TaskInstance), x ∈ cone → x ∈ (execAux beh l s rcd cone).2.2 := by
  intro l
  induction l with
  | nil => intro s rcd cone x h; simpa [execAux] using h
  | cons n rest ih =>
    intro s rcd cone x h
    rcases execAux_branches beh n rest s rcd cone with
      ⟨_, he⟩ | ⟨_, _, he⟩ | ⟨_, _, _, he⟩ | ⟨_, _, _, he⟩ <;> rw [he]
    · split
      · exact ih _ _ _ _ (List.mem_cons_of_mem _ h)
      · exact ih _ _ _ _ h
    · exact ih _ _ _ _ (List.mem_cons_of_mem _ h)
    · exact ih _ _ _ _ h
    · exact ih _ _ _ _ (List.mem_cons_of_mem _ h)

theorem exec_cone_bound (beh : TaskInstance → Bool) :
    ∀ (l : List GNode) (s : Store) (rcd : RunRecord) (cone : List TaskInstance)
      (x : TaskInstance), x ∈ (execAux beh l s rcd cone).2.2 →
      x ∈ cone ∨ x ∈ instsOf l := by
  intro l
  induction l with
  | nil => intro s rcd cone x h; simp [execAux] at h; exact Or.inl h
  | cons n rest ih =>
    intro s rcd cone x h
    have step : ∀ {cone' : List TaskInstance},
        (∀ y, y ∈ cone' → y = n.inst ∨ y ∈ cone) →
        (∀ s' rcd', x ∈ (execAux beh rest s' rcd' cone').2.2 →
          x ∈ cone ∨ x ∈ instsOf (n :: rest)) := by
      intro cone' hsub s' rcd' hx
      rcases ih s' rcd' cone' x hx with hc | hl
      · rcases hsub x hc with rfl | hc2
        · exact Or.inr (by simp [instsOf])
        · exact Or.inl hc2
      · exact Or.inr (List.mem_cons_of_mem _ hl)
    rcases execAux_branches beh n rest s rcd cone with
      ⟨_, he⟩ | ⟨_, _, he⟩ | ⟨_, _, _, he⟩ | ⟨_, _, _, he⟩ <;> rw [he] at h
    · revert h
      split
      · exact step (fun y hy => by simpa using List.mem_cons.mp hy) _ _
      · exact step (fun y hy => Or.inr hy) _ _
    · exact step (fun y hy => by simpa using List.mem_cons.mp hy) _ _ h
    · exact step (fun y hy => Or.inr hy) _ _ h
    · exact step (fun y hy => by simpa using List.mem_cons.mp hy) _ _ h

theorem exec_rcd_new (beh : TaskInstance → Bool) :
    ∀ (l : List GNode) (s : Store) (rcd : RunRecord) (cone : List TaskInstance)
      (e : TaskInstance × NodeStatus), e ∈ (execAux beh l s rcd cone).2.1 →
      e ∈ rcd ∨ e.1 ∈ instsOf l := by
  intro l
  induction l with
  | nil => intro s rcd cone e h; simp [execAux] at h; exact Or.inl h
  | cons n rest ih =>
    intro s rcd cone e h
    have step : ∀ {s' : Store} {rcd' : RunRecord} {cone' : List TaskInstance}
        (st : NodeStatus), rcd' = rcd ++ [(n.inst, st)] →
        e ∈ (execAux beh rest s' rcd' cone').2.1 →
        e ∈ rcd ∨ e.1 ∈ instsOf (n :: rest) := by
      intro s' rcd' cone' st hr hx
      rcases ih s' rcd' cone' e hx with hc | hl
      · rw [hr] at hc
        rcases List.mem_append.mp hc with hc | hc
        · exact Or.inl hc
        · simp only [List.mem_singleton] at hc
          subst hc
          exact Or.inr (by simp [instsOf])
      · exact Or.inr (List.mem_cons_of_mem _ hl)
    rcases execAux_branches beh n rest s rcd cone with
      ⟨_, he⟩ | ⟨_, _, he⟩ | ⟨_, _, _, he⟩ | ⟨_, _, _, he⟩ <;> rw [he] at h
    · exact step _ rfl h
    · exact step _ rfl h
    · exact step _ rfl h
    · exact step _ rfl h

theorem exec_rcd_entry (beh : TaskInstance → Bool) :
    ∀ (l : List GNode) (s : Store) (rcd : RunRecord) (cone : List TaskInstance)
      (n : GNode), n ∈ l →
      ∃ st, (n.inst, st) ∈ (execAux beh l s rcd cone).2.1 := by
  intro l
  induction l with
  | nil => intro s rcd cone n h; cases h
  | cons m rest ih =>
    intro s rcd cone n h
    rcases List.mem_cons.mp h with rfl | h
    · rcases execAux_branches beh n rest s rcd cone with
        ⟨_, he⟩ | ⟨_, _, he⟩ | ⟨_, _, _, he⟩ | ⟨_, _, _, he⟩ <;> rw [he]
      · exact ⟨.alreadyComplete, exec_rcd_mono beh _ _ _ _ _ (by simp)⟩
      · exact ⟨.skippedUpstreamFailed, exec_rcd_mono beh _ _ _ _ _ (by simp)⟩
      · exact ⟨.ran, exec_rcd_mono beh _ _ _ _ _ (by simp)⟩
      · exact ⟨.failed, exec_rcd_mono beh _ _ _ _ _ (by simp)⟩
    · rcases execAux_branches beh m rest s rcd cone with
        ⟨_, he⟩ | ⟨_, _, he⟩ | ⟨_, _, _, he⟩ | ⟨_, _, _, he⟩ <;> rw [he]
      all_goals exact ih _ _ _ _ h

/-- Modelled from the spec: preview mode performs the same walk as the
scheduler and the same completeness checks but never executes run procedures;
it only reports, per node in topological order, whether the node is already
satisfied (section 4.3).  It takes no run-procedure argument at all. -/
def previewAux : List GNode → Store → List (TaskInstance × Bool) →
    Store × List (TaskInstance × Bool)
  | [], s, rep => (s, rep)
  | n :: rest, s, rep => previewAux rest s (rep ++ [(n.inst, nodeComplete s n)])

/-- Modelled from the spec: preview of a resolved graph against a store. -/
def preview (g : List GNode) (s : Store) : Store × List (TaskInstance × Bool) :=
  previewAux g s []

theorem previewAux_spec :
    ∀ (l : List GNode) (s : Store) (rep : List (TaskInstance × Bool)),
      previewAux l s rep = (s, rep ++ l.map (fun n => (n.inst, nodeComplete s n))) := by
  intro l
  induction l with
  | nil => intro s rep; simp [previewAux]
  | cons n rest ih => intro s rep; simp [previewAux, ih]

theorem exec_all_complete (beh : TaskInstance → Bool) :
    ∀ (l : List GNode) (s : Store) (rcd : RunRecord),
      (∀ n ∈ l, nodeComplete s n = true) →
      execAux beh l s rcd [] =
        (s, rcd ++ l.map (fun n => (n.inst, NodeStatus.alreadyComplete)), []) := by
  intro l
  induction l with
  | nil => intro s rcd _; simp [execAux]
  | cons n rest ih =>
    intro s rcd hall
    have h1 : nodeComplete s n = true := hall n (by simp)
    have hb : depBlocked [] n = false := by
      simp [depBlocked]
    simp only [execAux, h1, if_true, hb, Bool.false_eq_true, if_false]
    rw [ih s _ (fun m hm => hall m (List.mem_cons_of_mem _ hm))]
    simp

/-! ### Claim C1: completeness is a function of the store contents only -/

/-- Claim C1: for every Task Instance node, the completeness predicate is true
iff every declared output of the node exists in the Artifact Store and passes
the store-level validity check; and it depends on nothing but the store
contents at the node's own artifact keys (in particular, never on when the
check is performed). -/
theorem c1_complete_iff_store (s : Store) (n : GNode) :
    (nodeComplete s n = true ↔
      ∀ o ∈ n.outputs, storeExists s ⟨n.inst, o⟩ = true) ∧
    (∀ s₂ : Store,
      (∀ o ∈ n.outputs, storeExists s₂ ⟨n.inst, o⟩ = storeExists s ⟨n.inst, o⟩) →
      nodeComplete s₂ n = nodeComplete s n) := by
  constructor
  · simp [nodeComplete, List.all_eq_true]
  · exact fun s₂ hsame => nodeComplete_ext hsame

/-- Witness for C1 at a concrete store and node. -/
theorem c1_complete_iff_store_witness :
    nodeComplete [⟨⟨⟨"A", []⟩, "data"⟩, true⟩] ⟨⟨"A", []⟩, [], ["data"]⟩ = true :=
  (c1_complete_iff_store [⟨⟨⟨"A", []⟩, "data"⟩, true⟩] ⟨⟨"A", []⟩, [], ["data"]⟩).1.mpr
    (by decide)

/-! ### Claim C2: a dependent may run only after its upstreams are complete -/

/-- Counterexample to C2 as stated: completeness is store-local (C1), so a
store that holds the dependent's artifacts but not the upstream's (the state
produced by a single-node reset of the upstream, section 4.4 mode (a)) makes
the dependent complete while its required upstream is incomplete.  The two
nodes form a well-formed resolved graph. -/
theorem c2_counterexample :
    (⟨"U", []⟩ : TaskInstance) ∈ (GNode.mk ⟨"D", []⟩ [⟨"U", []⟩] ["data"]).deps ∧
    topoOK [] [⟨⟨"U", []⟩, [], ["data"]⟩, ⟨⟨"D", []⟩, [⟨"U", []⟩], ["data"]⟩] = true ∧
    nodeComplete [⟨⟨⟨"D", []⟩, "data"⟩, true⟩] ⟨⟨"D", []⟩, [⟨"U", []⟩], ["data"]⟩ = true ∧
    nodeComplete [⟨⟨⟨"D", []⟩, "data"⟩, true⟩] ⟨⟨"U", []⟩, [], ["data"]⟩ = false := by
  decide

/-! ### Claim C3: running an already-satisfied graph does nothing -/

/-- Counterexample to C3 as stated: in a graph whose root (downstream-most
node) is complete but whose upstream node was made incomplete (single-node
reset, section 4.4 mode (a)), the scheduler of section 4.3 still walks the
whole resolved graph and re-executes the incomplete upstream, so the Run
Record of the pass has a "ran" entry. -/
theorem c3_counterexample :
    nodeComplete [⟨⟨⟨"B", []⟩, "data"⟩, true⟩] ⟨⟨"B", []⟩, [⟨"A", []⟩], ["data"]⟩ = true ∧
    topoOK [] [⟨⟨"A", []⟩, [], ["data"]⟩, ⟨⟨"B", []⟩, [⟨"A", []⟩], ["data"]⟩] = true ∧
    ranCount (execGraph (fun _ => true)
      [⟨⟨"A", []⟩, [], ["data"]⟩, ⟨⟨"B", []⟩, [⟨"A", []⟩], ["data"]⟩]
      [⟨⟨⟨"B", []⟩, "data"⟩, true⟩]).2.1 ⟨"A", []⟩ = 1 := by
  decide

/-- Claim C3 (amended): for every resolved task graph all of whose nodes are
already complete, a run performs zero executions: the store is unchanged, the
failure cone is empty, and the Run Record records every node, in order, as
already complete — in particular it contains zero "ran" entries. -/
theorem c3_all_complete_zero_runs (beh : TaskInstance → Bool) (g : List GNode)
    (s : Store) (hall : ∀ n ∈ g, nodeComplete s n = true) :
    execGraph beh g s = (s, g.map (fun n => (n.inst, NodeStatus.alreadyComplete)), []) := by
  unfold execGraph
  simpa using exec_all_complete beh g s [] hall

/-- Witness for the amended C3 on a concrete two-node complete graph. -/
theorem c3_all_complete_zero_runs_witness :
    execGraph (fun _ => true)
      [⟨⟨"A", []⟩, [], ["a"]⟩, ⟨⟨"B", []⟩, [⟨"A", []⟩], ["b"]⟩]
      [⟨⟨⟨"A", []⟩, "a"⟩, true⟩, ⟨⟨⟨"B", []⟩, "b"⟩, true⟩] =
      ([⟨⟨⟨"A", []⟩, "a"⟩, true⟩, ⟨⟨⟨"B", []⟩, "b"⟩, true⟩],
        [(⟨"A", []⟩, NodeStatus.alreadyComplete), (⟨"B", []⟩, NodeStatus.alreadyComplete)],
        []) :=
  c3_all_complete_zero_runs (fun _ => true) _ _ (by decide)

/-! ### Dependency edges and transitive descendants -/

/-- There is a dependency edge from `u` to `d` in graph `g`: some node of `g`
with instance `d` declares `u` among its upstream instances. -/
def stepB (g : List GNode) (u d : TaskInstance) : Bool :=
  g.any (fun nd => decide (nd.inst = d) && decide (u ∈ nd.deps))

/-- Bounded search for a dependency path of positive length from `u` down to
`d`, decomposing at the first edge. -/
def descFuel (g : List GNode) : Nat → TaskInstance → TaskInstance → Bool
  | 0, _, _ => false
  | fuel + 1, u, d =>
    stepB g u d || g.any (fun m => stepB g u m.inst && descFuel g fuel m.inst d)

/-- The instance `d` is a transitive downstream dependent of `u` in `g`.
Any dependency path can be shortened to at most `g.length` edges, and the
lemmas below only ever produce paths of that length, so this bound is
exact. -/
def DescendsB (g : List GNode) (u d : TaskInstance) : Bool :=
  descFuel g g.length u d

theorem stepB_of_mem {g : List GNode} {nd : GNode} {u : TaskInstance}
    (hnd : nd ∈ g) (hu : u ∈ nd.deps) : stepB g u nd.inst = true := by
  simp only [stepB, List.any_eq_true]
  exact ⟨nd, hnd, by simp [hu]⟩

theorem stepB_elim {g : List GNode} {u d : TaskInstance} (h : stepB g u d = true) :
    ∃ nd ∈ g, nd.inst = d ∧ u ∈ nd.deps := by
  simp only [stepB, List.any_eq_true, Bool.and_eq_true, decide_eq_true_eq] at h
  rcases h with ⟨nd, hnd, h1, h2⟩
  exact ⟨nd, hnd, h1, h2⟩

theorem descFuel_succ_iff (g : List GNode) (f : Nat) (u d : TaskInstance) :
    descFuel g (f + 1) u d = true ↔
      stepB g u d = true ∨
        ∃ m ∈ g, stepB g u m.inst = true ∧ descFuel g f m.inst d = true := by
  show (stepB g u d || g.any (fun m => stepB g u m.inst && descFuel g f m.inst d)) = true ↔ _
  simp only [Bool.or_eq_true, List.any_eq_true, Bool.and_eq_true]

theorem descFuel_mono {g : List GNode} :
    ∀ {f f' : Nat} {u d : TaskInstance}, f ≤ f' →
      descFuel g f u d = true → descFuel g f' u d = true := by
  intro f
  induction f with
  | zero => intro f' u d _ h; simp [descFuel] at h
  | succ f ih =>
    intro f' u d hle h
    obtain ⟨f'', rfl⟩ : ∃ f'', f' = f'' + 1 :=
      ⟨f' - 1, by omega⟩
    rw [descFuel_succ_iff] at h
    rw [descFuel_succ_iff]
    rcases h with h | ⟨m, hm, h1, h2⟩
    · exact Or.inl h
    · exact Or.inr ⟨m, hm, h1, ih (by omega) h2⟩

theorem descFuel_extend {g : List GNode} :
    ∀ {f : Nat} {u x d : TaskInstance}, descFuel g f u x = true →
      stepB g x d = true → descFuel g (f + 1) u d = true := by
  intro f
  induction f with
  | zero => intro u x d h _; simp [descFuel] at h
  | succ f ih =>
    intro u x d h hs
    rw [descFuel_succ_iff] at h
    rw [descFuel_succ_iff]
    rcases h with h | ⟨m, hm, h1, h2⟩
    · rcases stepB_elim h with ⟨nd, hnd, hinst, _⟩
      refine Or.inr ⟨nd, hnd, ?_, ?_⟩
      · rw [hinst]; exact h
      · rw [hinst, descFuel_succ_iff]
        exact Or.inl hs
    · exact Or.inr ⟨m, hm, h1, ih h2 hs⟩

theorem descFuel_absorb {g : List GNode} {S : List TaskInstance}
    (hcl : ∀ a ∈ S, ∀ mn ∈ g, a ∈ mn.deps → mn.inst ∈ S) :
    ∀ {f : Nat} {u d : TaskInstance}, u ∈ S → descFuel g f u d = true → d ∈ S := by
  intro f
  induction f with
  | zero => intro u d _ h; simp [descFuel] at h
  | succ f ih =>
    intro u d hu h
    rw [descFuel_succ_iff] at h
    rcases h with h | ⟨m, hm, h1, h2⟩
    · rcases stepB_elim h with ⟨nd, hnd, hinst, hdep⟩
      rw [← hinst]
      exact hcl u hu nd hnd hdep
    · rcases stepB_elim h1 with ⟨nd, hnd, hinst, hdep⟩
      exact ih (hinst ▸ hcl u hu nd hnd hdep) h2

/-! ### Topological-order lemmas -/

theorem topoOK_deps_mem :
    ∀ (p : List GNode) (seen : List TaskInstance) (n : GNode) (q : List GNode),
      topoOK seen (p ++ n :: q) = true →
      ∀ u ∈ n.deps, u ∈ seen ∨ u ∈ instsOf p := by
  intro p
  induction p with
  | nil =>
    intro seen n q h u hu
    simp only [List.nil_append, topoOK, Bool.and_eq_true, List.all_eq_true] at h
    exact Or.inl (by simpa using h.1 u hu)
  | cons x p ih =>
    intro seen n q h u hu
    simp only [List.cons_append, topoOK, Bool.and_eq_true] at h
    rcases ih (x.inst :: seen) n q h.2 u hu with hs | hp
    · rcases List.mem_cons.mp hs with rfl | hs
      · exact Or.inr (by simp [instsOf])
      · exact Or.inl hs
    · exact Or.inr (List.mem_cons_of_mem _ hp)

theorem nodup_append_not_both {x : TaskInstance} {l1 l2 : List TaskInstance}
    (hnd : (l1 ++ l2).Nodup) (h1 : x ∈ l1) (h2 : x ∈ l2) : False := by
  rcases List.nodup_append.mp hnd with ⟨_, _, hdisj⟩
  exact hdisj h1 h2

theorem succ_in_tail {pfx l' : List GNode} {nd mn : GNode}
    (htopo : topoOK [] (pfx ++ nd :: l') = true)
    (hnd : (instsOf (pfx ++ nd :: l')).Nodup)
    (hm : mn ∈ pfx ++ nd :: l') (hdep : nd.inst ∈ mn.deps) : mn ∈ l' := by
  rcases List.mem_append.mp hm with hmp | hmc
  · exfalso
    rcases List.append_of_mem hmp with ⟨p, q, rfl⟩
    have hdecomp : (p ++ mn :: q) ++ nd :: l' = p ++ mn :: (q ++ nd :: l') := by
      simp
    rw [hdecomp] at htopo
    have hmem : nd.inst ∈ instsOf p := by
      rcases topoOK_deps_mem p [] mn (q ++ nd :: l') htopo nd.inst hdep with h | h
      · cases h
      · exact h
    have hre : instsOf ((p ++ mn :: q) ++ nd :: l') =
        instsOf p ++ (mn.inst :: (instsOf q ++ nd.inst :: instsOf l')) := by
      simp [instsOf]
    rw [hre] at hnd
    exact nodup_append_not_both hnd hmem
      (List.mem_cons_of_mem _ (List.mem_append_right _ (List.mem_cons_self _ _)))
  · rcases List.mem_cons.mp hmc with rfl | hml
    · exfalso
      have hmem : mn.inst ∈ instsOf pfx := by
        rcases topoOK_deps_mem pfx [] mn l' htopo mn.inst hdep with h | h
        · cases h
        · exact h
      have hre : instsOf (pfx ++ mn :: l') =
          instsOf pfx ++ (mn.inst :: instsOf l') := by
        simp [instsOf]
      rw [hre] at hnd
      exact nodup_append_not_both hnd hmem (List.mem_cons_self _ _)
    · exact hml

/-! ### Claim C5: cascading reset -/

/-- Modelled from the spec: the Invalidation Manager's cascading mode
(section 4.4 mode (b)).  One topological pass collects the reset root and
every node with an upstream already collected; the collected set is exactly
the root plus its transitive downstream dependents. -/
def doomAux (N : TaskInstance) : List GNode → List TaskInstance → List TaskInstance
  | [], acc => acc
  | n :: rest, acc =>
    if decide (n.inst = N) || depBlocked acc n then doomAux N rest (n.inst :: acc)
    else doomAux N rest acc

/-- The set of instances invalidated by a cascading reset of `N`. -/
def cascadeSet (g : List GNode) (N : TaskInstance) : List TaskInstance :=
  doomAux N g []

/-- Modelled from the spec: cascading reset deletes all artifacts of the
reset node and of every transitive downstream dependent (section 4.4). -/
def resetCascade (g : List GNode) (N : TaskInstance) (s : Store) : Store :=
  s.filter (fun a => !(decide (a.key.inst ∈ cascadeSet g N)))

theorem doom_mono (N : TaskInstance) :
    ∀ (l : List GNode) (acc : List TaskInstance) (x : TaskInstance),
      x ∈ acc → x ∈ doomAux N l acc := by
  intro l
  induction l with
  | nil => intro acc x h; simpa [doomAux] using h
  | cons n rest ih =>
    intro acc x h
    simp only [doomAux]
    split
    · exact ih _ _ (List.mem_cons_of_mem _ h)
    · exact ih _ _ h

theorem doom_self {N : TaskInstance} :
    ∀ (l : List GNode) (acc : List TaskInstance),
      (∃ n ∈ l, n.inst = N) → N ∈ doomAux N l acc := by
  intro l
  induction l with
  | nil => intro acc h; simp at h
  | cons n rest ih =>
    intro acc h
    rcases h with ⟨m, hm, hinst⟩
    rcases List.mem_cons.mp hm with rfl | hm
    · have hcond : (decide (m.inst = N) || depBlocked acc m) = true := by
        simp [hinst]
      simp only [doomAux, hcond, if_true]
      exact doom_mono N rest _ N (hinst ▸ List.mem_cons_self _ _)
    · simp only [doomAux]
      split
      · exact ih _ ⟨m, hm, hinst⟩
      · exact ih _ ⟨m, hm, hinst⟩

theorem doom_sound {g : List GNode} {N : TaskInstance} :
    ∀ (l : List GNode) (acc : List TaskInstance) (k : Nat),
      (∀ n ∈ l, n ∈ g) →
      (∀ x ∈ acc, x = N ∨ descFuel g k N x = true) →
      ∀ x ∈ doomAux N l acc, x = N ∨ descFuel g (k + l.length) N x = true := by
  intro l
  induction l with
  | nil =>
    intro acc k _ hacc x hx
    simpa [doomAux] using hacc x hx
  | cons n rest ih =>
    intro acc k hsub hacc x hx
    have hstep : ∀ y ∈ acc, y = N ∨ descFuel g (k + 1) N y = true := by
      intro y hy
      rcases hacc y hy with h | h
      · exact Or.inl h
      · exact Or.inr (descFuel_mono (by omega) h)
    have hle : k + 1 + rest.length ≤ k + (n :: rest).length := by
      simp only [List.length_cons]
      omega
    have relax : ∀ z : TaskInstance,
        z = N ∨ descFuel g (k + 1 + rest.length) N z = true →
        z = N ∨ descFuel g (k + (n :: rest).length) N z = true := by
      intro z hz
      rcases hz with hz | hz
      · exact Or.inl hz
      · exact Or.inr (descFuel_mono hle hz)
    simp only [doomAux] at hx
    revert hx
    split
    · intro hx
      rename_i hcond
      refine relax x (ih (n.inst :: acc) (k + 1)
        (fun m hm => hsub m (List.mem_cons_of_mem _ hm)) ?_ x hx)
      intro y hy
      rcases List.mem_cons.mp hy with rfl | hy
      · simp only [Bool.or_eq_true, decide_eq_true_eq] at hcond
        rcases hcond with rfl | hcond
        · exact Or.inl rfl
        · simp only [depBlocked, List.any_eq_true, decide_eq_true_eq] at hcond
          rcases hcond with ⟨u, hu, huacc⟩
          have hedge : stepB g u n.inst = true :=
            stepB_of_mem (hsub n (List.mem_cons_self _ _)) hu
          rcases hacc u huacc with rfl | h
          · refine Or.inr (descFuel_mono (f := 1) (by omega) ?_)
            rw [show (1 : Nat) = 0 + 1 by rfl, descFuel_succ_iff]
            exact Or.inl hedge
          · exact Or.inr (descFuel_extend h hedge)
      · exact hstep y hy
    · intro hx
      exact relax x (ih acc (k + 1)
        (fun m hm => hsub m (List.mem_cons_of_mem _ hm)) hstep x hx)

theorem doomAux_closed {g : List GNode} {N : TaskInstance}
    (htopo : topoOK [] g = true) (hndup : (instsOf g).Nodup) :
    ∀ (l pfx : List GNode) (acc : List TaskInstance),
      g = pfx ++ l →
      (∀ x ∈ acc, x ∈ instsOf pfx) →
      (∀ u ∈ acc, ∀ mn ∈ g, u ∈ mn.deps → mn ∈ l ∨ mn.inst ∈ acc) →
      ∀ u ∈ doomAux N l acc, ∀ mn ∈ g, u ∈ mn.deps → mn.inst ∈ doomAux N l acc := by
  intro l
  induction l with
  | nil =>
    intro pfx acc _ _ hacc2 u hu mn hmn hdep
    simp only [doomAux] at hu ⊢
    rcases hacc2 u hu mn hmn hdep with h | h
    · cases h
    · exact h
  | cons n rest ih =>
    intro pfx acc hg hacc1 hacc2 u hu mn hmn hdep
    simp only [doomAux] at hu ⊢
    revert hu
    split
    · intro hu
      refine ih (pfx ++ [n]) (n.inst :: acc) (by simp [hg]) ?_ ?_ u hu mn hmn hdep
      · intro x hx
        rcases List.mem_cons.mp hx with rfl | hx
        · simp [instsOf]
        · have := hacc1 x hx
          simp only [instsOf, List.map_append] at this ⊢
          exact List.mem_append_left _ this
      · intro y hy mp hmp hdep2
        rcases List.mem_cons.mp hy with rfl | hy
        · exact Or.inl (succ_in_tail (hg ▸ htopo) (hg ▸ hndup) (hg ▸ hmp) hdep2)
        · rcases hacc2 y hy mp hmp hdep2 with hin | hin
          · rcases List.mem_cons.mp hin with rfl | hin
            · exact Or.inr (List.mem_cons_self _ _)
            · exact Or.inl hin
          · exact Or.inr (List.mem_cons_of_mem _ hin)
    · intro hu
      rename_i hcond
      refine ih (pfx ++ [n]) acc (by simp [hg]) ?_ ?_ u hu mn hmn hdep
      · intro x hx
        have := hacc1 x hx
        simp only [instsOf, List.map_append] at this ⊢
        exact List.mem_append_left _ this
      · intro y hy mp hmp hdep2
        rcases hacc2 y hy mp hmp hdep2 with hin | hin
        · rcases List.mem_cons.mp hin with rfl | hin
          · exfalso
            apply hcond
            have : depBlocked acc mp = true := by
              simp only [depBlocked, List.any_eq_true, decide_eq_true_eq]
              exact ⟨y, hdep2, hy⟩
            simp [this]
          · exact Or.inl hin
        · exact Or.inr hin

theorem cascade_closed {g : List GNode} {N : TaskInstance}
    (htopo : topoOK [] g = true) (hndup : (instsOf g).Nodup) :
    ∀ u ∈ cascadeSet g N, ∀ mn ∈ g, u ∈ mn.deps → mn.inst ∈ cascadeSet g N := by
  intro u hu mn hmn hdep
  exact doomAux_closed htopo hndup g [] [] rfl (by simp) (by simp) u hu mn hmn hdep

theorem reset_kills {g : List GNode} {N x : TaskInstance} {s : Store} {o : String}
    (hx : x ∈ cascadeSet g N) :
    storeExists (resetCascade g N s) ⟨x, o⟩ = false := by
  rw [Bool.eq_false_iff]
  intro h
  rw [storeExists_iff] at h
  rcases h with ⟨a, ha, hkey, _⟩
  rw [resetCascade, List.mem_filter] at ha
  have := ha.2
  rw [hkey] at this
  simp at this
  exact this hx

theorem reset_other {g : List GNode} {N x : TaskInstance} {s : Store} {o : String}
    (hx : x ∉ cascadeSet g N) :
    storeExists (resetCascade g N s) ⟨x, o⟩ = storeExists s ⟨x, o⟩ := by
  rw [Bool.eq_iff_iff]
  rw [storeExists_iff, storeExists_iff]
  constructor
  · rintro ⟨a, ha, hkey, hv⟩
    exact ⟨a, (List.mem_filter.mp ha).1, hkey, hv⟩
  · rintro ⟨a, ha, hkey, hv⟩
    refine ⟨a, List.mem_filter.mpr ⟨ha, ?_⟩, hkey, hv⟩
    rw [hkey]
    simpa using hx

/-- Claim C5 (nodes declare at least one output, as the data model requires):
a cascading reset of node `N` makes `N` and every transitive downstream
dependent of `N` incomplete, while every node that is not `N` and not
downstream of `N` — in particular every upstream node — keeps exactly the
completeness state it had before the reset. -/
theorem c5_cascading_reset (g : List GNode) (N : TaskInstance) (s : Store)
    (htopo : topoOK [] g = true) (hndup : (instsOf g).Nodup)
    (hout : ∀ n ∈ g, n.outputs ≠ [])
    (hN : ∃ n ∈ g, n.inst = N) :
    (∀ nn ∈ g, nn.inst = N → nodeComplete (resetCascade g N s) nn = false) ∧
    (∀ dn ∈ g, DescendsB g N dn.inst = true →
      nodeComplete (resetCascade g N s) dn = false) ∧
    (∀ mn ∈ g, mn.inst ≠ N → DescendsB g N mn.inst = false →
      nodeComplete (resetCascade g N s) mn = nodeComplete s mn) := by
  have hNin : N ∈ cascadeSet g N := doom_self g [] hN
  refine ⟨?_, ?_, ?_⟩
  · intro nn hnn hinst
    rcases List.exists_cons_of_ne_nil (hout nn hnn) with ⟨o, os, houts⟩
    simp only [nodeComplete, houts, List.all_cons, hinst,
      reset_kills (g := g) (N := N) (s := s) (o := o) hNin, Bool.false_and]
  · intro dn hdn hdesc
    have hmem : dn.inst ∈ cascadeSet g N :=
      descFuel_absorb (cascade_closed htopo hndup) hNin hdesc
    rcases List.exists_cons_of_ne_nil (hout dn hdn) with ⟨o, os, houts⟩
    simp only [nodeComplete, houts, List.all_cons,
      reset_kills (g := g) (N := N) (s := s) (o := o) hmem, Bool.false_and]
  · intro mn hmn hne hnd
    have hnotin : mn.inst ∉ cascadeSet g N := by
      intro hin
      rcases doom_sound (g := g) (N := N) g [] 0 (fun m hm => hm) (by simp) mn.inst hin with
        h | h
      · exact hne h
      · rw [Bool.eq_false_iff] at hnd
        exact hnd (by simpa [DescendsB] using h)
    exact nodeComplete_ext (fun o _ => reset_other hnotin)

/-- Witness for C5 on the concrete chain A -> B -> C with all nodes complete:
resetting B leaves A complete and makes B and C incomplete. -/
theorem c5_cascading_reset_witness :
    nodeComplete
      (resetCascade
        [⟨⟨"A", []⟩, [], ["a"]⟩, ⟨⟨"B", []⟩, [⟨"A", []⟩], ["b"]⟩,
          ⟨⟨"C", []⟩, [⟨"B", []⟩], ["c"]⟩]
        ⟨"B", []⟩
        [⟨⟨⟨"A", []⟩, "a"⟩, true⟩, ⟨⟨⟨"B", []⟩, "b"⟩, true⟩, ⟨⟨⟨"C", []⟩, "c"⟩, true⟩])
      ⟨⟨"C", []⟩, [⟨"B", []⟩], ["c"]⟩ = false :=
  (c5_cascading_reset
    [⟨⟨"A", []⟩, [], ["a"]⟩, ⟨⟨"B", []⟩, [⟨"A", []⟩], ["b"]⟩,
      ⟨⟨"C", []⟩, [⟨"B", []⟩], ["c"]⟩]
    ⟨"B", []⟩
    [⟨⟨⟨"A", []⟩, "a"⟩, true⟩, ⟨⟨⟨"B", []⟩, "b"⟩, true⟩, ⟨⟨⟨"C", []⟩, "c"⟩, true⟩]
    (by decide) (by decide) (by decide) (by decide)).2.1
    ⟨⟨"C", []⟩, [⟨"B", []⟩], ["c"]⟩ (by decide) (by decide)

/-! ### Failure-cone lemmas for the executor -/

theorem boundary_nodup {g pfx rest : List GNode} {nd : GNode}
    (hg : g = pfx ++ nd :: rest) (hndup : (instsOf g).Nodup) :
    nd.inst ∉ instsOf pfx ∧ nd.inst ∉ instsOf rest := by
  subst hg
  have hre : instsOf (pfx ++ nd :: rest) = instsOf pfx ++ nd.inst :: instsOf rest := by
    simp [instsOf]
  rw [hre] at hndup
  rcases List.nodup_append.mp hndup with ⟨_, h2, hdisj⟩
  exact ⟨fun hin => hdisj hin (List.mem_cons_self _ _),
    (List.nodup_cons.mp h2).1⟩

theorem inst_unique :
    ∀ {g : List GNode}, (instsOf g).Nodup → ∀ {a b : GNode},
      a ∈ g → b ∈ g → a.inst = b.inst → a = b := by
  intro g
  induction g with
  | nil => intro _ a b ha _ _; cases ha
  | cons n rest ih =>
    intro hnd a b ha hb heq
    have hnd' : (instsOf rest).Nodup ∧ n.inst ∉ instsOf rest := by
      have : instsOf (n :: rest) = n.inst :: instsOf rest := by simp [instsOf]
      rw [this] at hnd
      exact ⟨(List.nodup_cons.mp hnd).2, (List.nodup_cons.mp hnd).1⟩
    rcases List.mem_cons.mp ha with rfl | ha2
    · rcases List.mem_cons.mp hb with rfl | hb2
      · rfl
      · exfalso
        have hmem : b.inst ∈ instsOf rest := List.mem_map_of_mem GNode.inst hb2
        rw [← heq] at hmem
        exact hnd'.2 hmem
    · rcases List.mem_cons.mp hb with rfl | hb2
      · exfalso
        have hmem : a.inst ∈ instsOf rest := List.mem_map_of_mem GNode.inst ha2
        rw [heq] at hmem
        exact hnd'.2 hmem
      · exact ih hnd'.1 ha2 hb2 heq

theorem deps_in_pfx {g pfx rest : List GNode} {nd : GNode}
    (hg : g = pfx ++ nd :: rest) (htopo : topoOK [] g = true) :
    ∀ u ∈ nd.deps, u ∈ instsOf pfx := by
  intro u hu
  rcases topoOK_deps_mem pfx [] nd rest (hg ▸ htopo) u hu with h | h
  · cases h
  · exact h

theorem exec_cone_closed {g : List GNode} (beh : TaskInstance → Bool)
    (htopo : topoOK [] g = true) (hndup : (instsOf g).Nodup) :
    ∀ (l pfx : List GNode) (s : Store) (rcd : RunRecord) (cone : List TaskInstance),
      g = pfx ++ l →
      (∀ x ∈ cone, x ∈ instsOf pfx) →
      (∀ u ∈ cone, ∀ mn ∈ g, u ∈ mn.deps → mn ∈ l ∨ mn.inst ∈ cone) →
      ∀ u ∈ (execAux beh l s rcd cone).2.2, ∀ mn ∈ g, u ∈ mn.deps →
        mn.inst ∈ (execAux beh l s rcd cone).2.2 := by
  intro l
  induction l with
  | nil =>
    intro pfx s rcd cone _ _ hacc2 u hu mn hmn hdep
    simp only [execAux] at hu ⊢
    rcases hacc2 u hu mn hmn hdep with h | h
    · cases h
    · exact h
  | cons nd rest ih =>
    intro pfx s rcd cone hg hacc1 hacc2 u hu mn hmn hdep
    have hacc1T : ∀ x ∈ nd.inst :: cone, x ∈ instsOf (pfx ++ [nd]) := by
      intro x hx
      rcases List.mem_cons.mp hx with rfl | hx
      · simp [instsOf]
      · have := hacc1 x hx
        simp only [instsOf, List.map_append] at this ⊢
        exact List.mem_append_left _ this
    have hacc1U : ∀ x ∈ cone, x ∈ instsOf (pfx ++ [nd]) := by
      intro x hx
      have := hacc1 x hx
      simp only [instsOf, List.map_append] at this ⊢
      exact List.mem_append_left _ this
    have hacc2T : ∀ y ∈ nd.inst :: cone, ∀ mp ∈ g, y ∈ mp.deps →
        mp ∈ rest ∨ mp.inst ∈ nd.inst :: cone := by
      intro y hy mp hmp hdep2
      rcases List.mem_cons.mp hy with rfl | hy
      · exact Or.inl (succ_in_tail (hg ▸ htopo) (hg ▸ hndup) (hg ▸ hmp) hdep2)
      · rcases hacc2 y hy mp hmp hdep2 with hin | hin
        · rcases List.mem_cons.mp hin with rfl | hin
          · exact Or.inr (List.mem_cons_self _ _)
          · exact Or.inl hin
        · exact Or.inr (List.mem_cons_of_mem _ hin)
    have hacc2U : depBlocked cone nd = false → ∀ y ∈ cone, ∀ mp ∈ g, y ∈ mp.deps →
        mp ∈ rest ∨ mp.inst ∈ cone := by
      intro hnb y hy mp hmp hdep2
      rcases hacc2 y hy mp hmp hdep2 with hin | hin
      · rcases List.mem_cons.mp hin with rfl | hin
        · exfalso
          have : depBlocked cone mp = true := by
            simp only [depBlocked, List.any_eq_true, decide_eq_true_eq]
            exact ⟨y, hdep2, hy⟩
          rw [hnb] at this
          cases this
        · exact Or.inl hin
      · exact Or.inr hin
    have hgT : g = (pfx ++ [nd]) ++ rest := by simp [hg]
    rcases execAux_branches beh nd rest s rcd cone with
      ⟨hc, he⟩ | ⟨hc, hb, he⟩ | ⟨hc, hb, hbe, he⟩ | ⟨hc, hb, hbe, he⟩
    · rw [he] at hu ⊢
      revert hu
      by_cases hb : depBlocked cone nd = true
      · rw [if_pos hb]
        intro hu
        exact ih (pfx ++ [nd]) _ _ _ hgT hacc1T hacc2T u hu mn hmn hdep
      · rw [if_neg hb]
        intro hu
        exact ih (pfx ++ [nd]) _ _ _ hgT hacc1U
          (hacc2U (Bool.not_eq_true _ ▸ hb)) u hu mn hmn hdep
    · rw [he] at hu ⊢
      exact ih (pfx ++ [nd]) _ _ _ hgT hacc1T hacc2T u hu mn hmn hdep
    · rw [he] at hu ⊢
      exact ih (pfx ++ [nd]) _ _ _ hgT hacc1U (hacc2U hb) u hu mn hmn hdep
    · rw [he] at hu ⊢
      exact ih (pfx ++ [nd]) _ _ _ hgT hacc1T hacc2T u hu mn hmn hdep

theorem exec_bad_status_in_cone (beh : TaskInstance → Bool) :
    ∀ (l : List GNode) (s : Store) (rcd : RunRecord) (cone : List TaskInstance)
      (x : TaskInstance) (st : NodeStatus),
      (st = NodeStatus.failed ∨ st = NodeStatus.skippedUpstreamFailed) →
      (x, st) ∈ (execAux beh l s rcd cone).2.1 →
      (x, st) ∈ rcd ∨ x ∈ (execAux beh l s rcd cone).2.2 := by
  intro l
  induction l with
  | nil =>
    intro s rcd cone x st _ h
    simp only [execAux] at h ⊢
    exact Or.inl h
  | cons nd rest ih =>
    intro s rcd cone x st hst h
    rcases execAux_branches beh nd rest s rcd cone with
      ⟨hc, he⟩ | ⟨hc, hb, he⟩ | ⟨hc, hb, hbe, he⟩ | ⟨hc, hb, hbe, he⟩ <;> rw [he] at h ⊢
    · rcases ih _ _ _ x st hst h with hin | hin
      · rcases List.mem_append.mp hin with hin | hin
        · exact Or.inl hin
        · exfalso
          simp only [List.mem_singleton, Prod.mk.injEq] at hin
          rcases hst with rfl | rfl <;> exact NodeStatus.noConfusion hin.2
      · exact Or.inr hin
    · rcases ih _ _ _ x st hst h with hin | hin
      · rcases List.mem_append.mp hin with hin | hin
        · exact Or.inl hin
        · simp only [List.mem_singleton, Prod.mk.injEq] at hin
          exact Or.inr (exec_cone_mono beh rest _ _ _ x
            (hin.1 ▸ List.mem_cons_self _ _))
      · exact Or.inr hin
    · rcases ih _ _ _ x st hst h with hin | hin
      · rcases List.mem_append.mp hin with hin | hin
        · exact Or.inl hin
        · exfalso
          simp only [List.mem_singleton, Prod.mk.injEq] at hin
          rcases hst with rfl | rfl <;> exact NodeStatus.noConfusion hin.2
      · exact Or.inr hin
    · rcases ih _ _ _ x st hst h with hin | hin
      · rcases List.mem_append.mp hin with hin | hin
        · exact Or.inl hin
        · simp only [List.mem_singleton, Prod.mk.injEq] at hin
          exact Or.inr (exec_cone_mono beh rest _ _ _ x
            (hin.1 ▸ List.mem_cons_self _ _))
      · exact Or.inr hin

theorem exec_ran_not_in_cone {g : List GNode} (beh : TaskInstance → Bool)
    (hndup : (instsOf g).Nodup) :
    ∀ (l pfx : List GNode) (s : Store) (rcd : RunRecord) (cone : List TaskInstance),
      g = pfx ++ l →
      (∀ x ∈ cone, x ∈ instsOf pfx) →
      (∀ x, (x, NodeStatus.ran) ∈ rcd → x ∉ cone ∧ x ∉ instsOf l) →
      ∀ x, (x, NodeStatus.ran) ∈ (execAux beh l s rcd cone).2.1 →
        x ∉ (execAux beh l s rcd cone).2.2 := by
  intro l
  induction l with
  | nil =>
    intro pfx s rcd cone _ _ hrcd x hx
    simp only [execAux] at hx ⊢
    exact (hrcd x hx).1
  | cons nd rest ih =>
    intro pfx s rcd cone hg hacc1 hrcd x hx
    have hbd := boundary_nodup hg hndup
    have hgT : g = (pfx ++ [nd]) ++ rest := by simp [hg]
    have hacc1' : ∀ {cone' : List TaskInstance},
        (∀ y ∈ cone', y = nd.inst ∨ y ∈ cone) →
        ∀ z ∈ cone', z ∈ instsOf (pfx ++ [nd]) := by
      intro cone' hsub z hz
      rcases hsub z hz with rfl | hz
      · simp [instsOf]
      · have := hacc1 z hz
        simp only [instsOf, List.map_append] at this ⊢
        exact List.mem_append_left _ this
    have hold : ∀ {cone' : List TaskInstance} (st : NodeStatus),
        (∀ y ∈ cone', y = nd.inst ∨ y ∈ cone) → st ≠ NodeStatus.ran →
        ∀ z, (z, NodeStatus.ran) ∈ rcd ++ [(nd.inst, st)] →
          z ∉ cone' ∧ z ∉ instsOf rest := by
      intro cone' st hsub hne z hz
      rcases List.mem_append.mp hz with hz | hz
      · rcases hrcd z hz with ⟨h1, h2⟩
        have hzn : z ≠ nd.inst := by
          intro hzz
          exact h2 (by simp [instsOf, hzz])
        constructor
        · intro hzc
          rcases hsub z hzc with h | h
          · exact hzn h
          · exact h1 h
        · intro hzr
          exact h2 (List.mem_cons_of_mem _ hzr)
      · exfalso
        simp only [List.mem_singleton, Prod.mk.injEq] at hz
        exact hne hz.2.symm
    rcases execAux_branches beh nd rest s rcd cone with
      ⟨hc, he⟩ | ⟨hc, hb, he⟩ | ⟨hc, hb, hbe, he⟩ | ⟨hc, hb, hbe, he⟩ <;> rw [he] at hx ⊢
    · revert hx
      by_cases hbb : depBlocked cone nd = true
      · rw [if_pos hbb]
        intro hx
        refine ih (pfx ++ [nd]) _ _ _ hgT
          (hacc1' (fun y hy => by simpa using List.mem_cons.mp hy))
          (hold _ (fun y hy => by simpa using List.mem_cons.mp hy) (by simp)) x hx
      · rw [if_neg hbb]
        intro hx
        refine ih (pfx ++ [nd]) _ _ _ hgT
          (hacc1' (fun y hy => Or.inr hy))
          (hold _ (fun y hy => Or.inr hy) (by simp)) x hx
    · refine ih (pfx ++ [nd]) _ _ _ hgT
        (hacc1' (fun y hy => by simpa using List.mem_cons.mp hy))
        (hold _ (fun y hy => by simpa using List.mem_cons.mp hy) (by simp)) x hx
    · refine ih (pfx ++ [nd]) _ _ _ hgT
        (hacc1' (fun y hy => Or.inr hy)) ?_ x hx
      intro z hz
      rcases List.mem_append.mp hz with hz | hz
      · rcases hrcd z hz with ⟨h1, h2⟩
        exact ⟨h1, fun hzr => h2 (List.mem_cons_of_mem _ hzr)⟩
      · simp only [List.mem_singleton, Prod.mk.injEq] at hz
        rw [hz.1]
        constructor
        · intro hin
          exact hbd.1 (hacc1 nd.inst hin)
        · intro hin
          exact hbd.2 (by simpa [instsOf] using hin)
    · refine ih (pfx ++ [nd]) _ _ _ hgT
        (hacc1' (fun y hy => by simpa using List.mem_cons.mp hy))
        (hold _ (fun y hy => by simpa using List.mem_cons.mp hy) (by simp)) x hx

theorem storeExists_foldl_elim {i : TaskInstance} :
    ∀ (os : List String) {s : Store} {k : ArtifactKey},
      storeExists (os.foldl (fun acc o => storeWrite acc ⟨i, o⟩) s) k = true →
      storeExists s k = true ∨ k.inst = i := by
  intro os
  induction os with
  | nil => intro s k h; exact Or.inl h
  | cons o os2 ih =>
    intro s k h
    rw [List.foldl_cons] at h
    rcases ih h with h2 | h2
    · rcases (storeExists_iff _ _).mp h2 with ⟨a, ha, hkey, hv⟩
      rcases List.mem_cons.mp ha with rfl | ha
      · exact Or.inr (by rw [← hkey])
      · exact Or.inl ((storeExists_iff _ _).mpr ⟨a, ha, hkey, hv⟩)
    · exact Or.inr h2

theorem storeExists_writeOutputs_elim {s : Store} {k : ArtifactKey} {n : GNode}
    (h : storeExists (writeOutputs s n) k = true) :
    storeExists s k = true ∨ k.inst = n.inst := by
  unfold writeOutputs at h
  exact storeExists_foldl_elim n.outputs h

theorem exec_new_store_ran (beh : TaskInstance → Bool) :
    ∀ (l : List GNode) (s : Store) (rcd : RunRecord) (cone : List TaskInstance)
      (k : ArtifactKey), storeExists (execAux beh l s rcd cone).1 k = true →
      storeExists s k = true ∨
        (k.inst, NodeStatus.ran) ∈ (execAux beh l s rcd cone).2.1 := by
  intro l
  induction l with
  | nil =>
    intro s rcd cone k h
    simp only [execAux] at h ⊢
    exact Or.inl h
  | cons nd rest ih =>
    intro s rcd cone k h
    rcases execAux_branches beh nd rest s rcd cone with
      ⟨hc, he⟩ | ⟨hc, hb, he⟩ | ⟨hc, hb, hbe, he⟩ | ⟨hc, hb, hbe, he⟩ <;> rw [he] at h ⊢
    · exact ih _ _ _ _ h
    · exact ih _ _ _ _ h
    · rcases ih _ _ _ _ h with h2 | h2
      · rcases storeExists_writeOutputs_elim h2 with h3 | h3
        · exact Or.inl h3
        · exact Or.inr (h3 ▸ exec_rcd_mono beh rest _ _ _ _ (by simp))
      · exact Or.inr h2
    · exact ih _ _ _ _ h

theorem exec_cone_sound {g : List GNode} (beh : TaskInstance → Bool) :
    ∀ (l pfx : List GNode) (s : Store) (rcd : RunRecord) (cone : List TaskInstance),
      g = pfx ++ l →
      (∀ x ∈ cone, ∃ f, (f, NodeStatus.failed) ∈ rcd ∧
        (x = f ∨ descFuel g pfx.length f x = true)) →
      ∀ x ∈ (execAux beh l s rcd cone).2.2,
        ∃ f, (f, NodeStatus.failed) ∈ (execAux beh l s rcd cone).2.1 ∧
          (x = f ∨ descFuel g g.length f x = true) := by
  intro l
  induction l with
  | nil =>
    intro pfx s rcd cone hg hacc x hx
    simp only [execAux] at hx ⊢
    rcases hacc x hx with ⟨f, hf, hd⟩
    refine ⟨f, hf, ?_⟩
    rcases hd with hd | hd
    · exact Or.inl hd
    · exact Or.inr (by
        have : pfx.length = g.length := by rw [hg]; simp
        exact this ▸ hd)
  | cons nd rest ih =>
    intro pfx s rcd cone hg hacc x hx
    have hndg : nd ∈ g := by rw [hg]; simp
    have hlen : (pfx ++ [nd]).length = pfx.length + 1 := by simp
    have hgT : g = (pfx ++ [nd]) ++ rest := by simp [hg]
    have hmonoAcc : ∀ (st : NodeStatus),
        ∀ x ∈ cone, ∃ f, (f, NodeStatus.failed) ∈ rcd ++ [(nd.inst, st)] ∧
          (x = f ∨ descFuel g (pfx ++ [nd]).length f x = true) := by
      intro st y hy
      rcases hacc y hy with ⟨f, hf, hd⟩
      refine ⟨f, List.mem_append_left _ hf, ?_⟩
      rcases hd with hd | hd
      · exact Or.inl hd
      · exact Or.inr (hlen ▸ descFuel_mono (by omega) hd)
    have hnewAcc : depBlocked cone nd = true → ∀ (st : NodeStatus),
        ∀ x ∈ nd.inst :: cone, ∃ f, (f, NodeStatus.failed) ∈ rcd ++ [(nd.inst, st)] ∧
          (x = f ∨ descFuel g (pfx ++ [nd]).length f x = true) := by
      intro hb st y hy
      rcases List.mem_cons.mp hy with rfl | hy
      · simp only [depBlocked, List.any_eq_true, decide_eq_true_eq] at hb
        rcases hb with ⟨u, hu, huc⟩
        rcases hacc u huc with ⟨f, hf, hd⟩
        have hedge : stepB g u nd.inst = true := stepB_of_mem hndg hu
        refine ⟨f, List.mem_append_left _ hf, Or.inr ?_⟩
        rcases hd with rfl | hd
        · refine hlen ▸ descFuel_mono (f := 0 + 1) (by omega) ?_
          rw [descFuel_succ_iff]
          exact Or.inl hedge
        · exact hlen ▸ descFuel_extend hd hedge
      · exact hmonoAcc st y hy
    rcases execAux_branches beh nd rest s rcd cone with
      ⟨hc, he⟩ | ⟨hc, hb, he⟩ | ⟨hc, hb, hbe, he⟩ | ⟨hc, hb, hbe, he⟩ <;> rw [he] at hx ⊢
    · revert hx
      by_cases hbb : depBlocked cone nd = true
      · rw [if_pos hbb]
        intro hx
        exact ih (pfx ++ [nd]) _ _ _ hgT (hnewAcc hbb _) x hx
      · rw [if_neg hbb]
        intro hx
        exact ih (pfx ++ [nd]) _ _ _ hgT (hmonoAcc _) x hx
    · exact ih (pfx ++ [nd]) _ _ _ hgT (hnewAcc hb _) x hx
    · exact ih (pfx ++ [nd]) _ _ _ hgT (hmonoAcc _) x hx
    · refine ih (pfx ++ [nd]) _ _ _ hgT ?_ x hx
      intro y hy
      rcases List.mem_cons.mp hy with rfl | hy
      · exact ⟨nd.inst, List.mem_append_right _ (List.mem_singleton.mpr rfl), Or.inl rfl⟩
      · exact hmonoAcc _ y hy

/-! ### Post-state lemmas: every node ends complete or in the failure cone -/

theorem exec_all_fate {g : List GNode} (beh : TaskInstance → Bool) :
    ∀ (l pfx : List GNode) (s : Store) (rcd : RunRecord) (cone : List TaskInstance),
      g = pfx ++ l →
      (∀ mn ∈ pfx, mn.inst ∈ cone ∨ nodeComplete s mn = true) →
      ∀ mn ∈ g, mn.inst ∈ (execAux beh l s rcd cone).2.2 ∨
        nodeComplete (execAux beh l s rcd cone).1 mn = true := by
  intro l
  induction l with
  | nil =>
    intro pfx s rcd cone hg hprev mn hmn
    simp only [execAux]
    exact hprev mn (by rw [hg] at hmn; simpa using hmn)
  | cons nd rest ih =>
    intro pfx s rcd cone hg hprev mn hmn
    have hgT : g = (pfx ++ [nd]) ++ rest := by simp [hg]
    rcases execAux_branches beh nd rest s rcd cone with
      ⟨hc, he⟩ | ⟨hc, hb, he⟩ | ⟨hc, hb, hbe, he⟩ | ⟨hc, hb, hbe, he⟩ <;> rw [he]
    · refine ih (pfx ++ [nd]) _ _ _ hgT ?_ mn hmn
      intro mp hmp
      rcases List.mem_append.mp hmp with hmp | hmp
      · rcases hprev mp hmp with h | h
        · left
          split
          · exact List.mem_cons_of_mem _ h
          · exact h
        · exact Or.inr h
      · simp only [List.mem_singleton] at hmp
        subst hmp
        exact Or.inr hc
    · refine ih (pfx ++ [nd]) _ _ _ hgT ?_ mn hmn
      intro mp hmp
      rcases List.mem_append.mp hmp with hmp | hmp
      · rcases hprev mp hmp with h | h
        · exact Or.inl (List.mem_cons_of_mem _ h)
        · exact Or.inr h
      · simp only [List.mem_singleton] at hmp
        subst hmp
        exact Or.inl (List.mem_cons_self _ _)
    · refine ih (pfx ++ [nd]) _ _ _ hgT ?_ mn hmn
      intro mp hmp
      rcases List.mem_append.mp hmp with hmp | hmp
      · rcases hprev mp hmp with h | h
        · exact Or.inl h
        · exact Or.inr (nodeComplete_mono
            (fun k hk => storeExists_writeOutputs_mono nd hk) h)
      · simp only [List.mem_singleton] at hmp
        subst hmp
        exact Or.inr (nodeComplete_writeOutputs_self s mp)
    · refine ih (pfx ++ [nd]) _ _ _ hgT ?_ mn hmn
      intro mp hmp
      rcases List.mem_append.mp hmp with hmp | hmp
      · rcases hprev mp hmp with h | h
        · exact Or.inl (List.mem_cons_of_mem _ h)
        · exact Or.inr h
      · simp only [List.mem_singleton] at hmp
        subst hmp
        exact Or.inl (List.mem_cons_self _ _)

theorem exec_ran_deps_not_cone {g : List GNode} (beh : TaskInstance → Bool)
    (htopo : topoOK [] g = true) (hndup : (instsOf g).Nodup)
    {dn : GNode} (hdn : dn ∈ g) :
    ∀ (l pfx : List GNode) (s : Store) (rcd : RunRecord) (cone : List TaskInstance),
      g = pfx ++ l →
      (∀ x ∈ cone, x ∈ instsOf pfx) →
      ((dn.inst, NodeStatus.ran) ∈ rcd → ∀ u ∈ dn.deps, u ∉ cone ∧ u ∉ instsOf l) →
      (dn.inst, NodeStatus.ran) ∈ (execAux beh l s rcd cone).2.1 →
      ∀ u ∈ dn.deps, u ∉ (execAux beh l s rcd cone).2.2 := by
  intro l
  induction l with
  | nil =>
    intro pfx s rcd cone _ _ hinv hx u hu
    simp only [execAux] at hx ⊢
    exact (hinv hx u hu).1
  | cons nd rest ih =>
    intro pfx s rcd cone hg hacc1 hinv hx u hu
    have hbd := boundary_nodup hg hndup
    have hgT : g = (pfx ++ [nd]) ++ rest := by simp [hg]
    have hacc1' : ∀ {cone' : List TaskInstance},
        (∀ y ∈ cone', y = nd.inst ∨ y ∈ cone) →
        ∀ z ∈ cone', z ∈ instsOf (pfx ++ [nd]) := by
      intro cone' hsub z hz
      rcases hsub z hz with rfl | hz
      · simp [instsOf]
      · have := hacc1 z hz
        simp only [instsOf, List.map_append] at this ⊢
        exact List.mem_append_left _ this
    have holdinv : ∀ {cone' : List TaskInstance} (st : NodeStatus),
        (∀ y ∈ cone', y = nd.inst ∨ y ∈ cone) → st ≠ NodeStatus.ran →
        (dn.inst, NodeStatus.ran) ∈ rcd ++ [(nd.inst, st)] →
        ∀ v ∈ dn.deps, v ∉ cone' ∧ v ∉ instsOf rest := by
      intro cone' st hsub hne hmem v hv
      rcases List.mem_append.mp hmem with hmem | hmem
      · rcases hinv hmem v hv with ⟨h1, h2⟩
        have hvn : v ≠ nd.inst := by
          intro hvv
          exact h2 (by simp [instsOf, hvv])
        refine ⟨?_, fun hvr => h2 (List.mem_cons_of_mem _ hvr)⟩
        intro hvc
        rcases hsub v hvc with h | h
        · exact hvn h
        · exact h1 h
      · exfalso
        simp only [List.mem_singleton, Prod.mk.injEq] at hmem
        exact hne hmem.2.symm
    rcases execAux_branches beh nd rest s rcd cone with
      ⟨hc, he⟩ | ⟨hc, hb, he⟩ | ⟨hc, hb, hbe, he⟩ | ⟨hc, hb, hbe, he⟩ <;> rw [he] at hx ⊢
    · revert hx
      by_cases hbb : depBlocked cone nd = true
      · rw [if_pos hbb]
        intro hx
        exact ih (pfx ++ [nd]) _ _ _ hgT
          (hacc1' (fun y hy => by simpa using List.mem_cons.mp hy))
          (holdinv _ (fun y hy => by simpa using List.mem_cons.mp hy) (by simp)) hx u hu
      · rw [if_neg hbb]
        intro hx
        exact ih (pfx ++ [nd]) _ _ _ hgT
          (hacc1' (fun y hy => Or.inr hy))
          (holdinv _ (fun y hy => Or.inr hy) (by simp)) hx u hu
    · exact ih (pfx ++ [nd]) _ _ _ hgT
        (hacc1' (fun y hy => by simpa using List.mem_cons.mp hy))
        (holdinv _ (fun y hy => by simpa using List.mem_cons.mp hy) (by simp)) hx u hu
    · refine ih (pfx ++ [nd]) _ _ _ hgT (hacc1' (fun y hy => Or.inr hy)) ?_ hx u hu
      intro hmem v hv
      rcases List.mem_append.mp hmem with hmem | hmem
      · rcases hinv hmem v hv with ⟨h1, h2⟩
        exact ⟨h1, fun hvr => h2 (List.mem_cons_of_mem _ hvr)⟩
      · simp only [List.mem_singleton, Prod.mk.injEq] at hmem
        have hnddn : nd = dn := inst_unique hndup (by rw [hg]; simp) hdn hmem.1.symm
        subst hnddn
        constructor
        · intro hvc
          have : depBlocked cone nd = true := by
            simp only [depBlocked, List.any_eq_true, decide_eq_true_eq]
            exact ⟨v, hv, hvc⟩
          rw [hb] at this
          cases this
        · intro hvr
          have hvp : v ∈ instsOf pfx := deps_in_pfx hg htopo v hv
          have hre : instsOf g = instsOf pfx ++ (nd.inst :: instsOf rest) := by
            rw [hg]; simp [instsOf]
          rw [hre] at hndup
          exact nodup_append_not_both hndup hvp (List.mem_cons_of_mem _ hvr)
    · exact ih (pfx ++ [nd]) _ _ _ hgT
        (hacc1' (fun y hy => by simpa using List.mem_cons.mp hy))
        (holdinv _ (fun y hy => by simpa using List.mem_cons.mp hy) (by simp)) hx u hu

/-! ### Claim C2: execution is permitted only after upstreams are complete -/

/-- Claim C2 (amended to its scheduler form): in any pass over a resolved
graph (topologically ordered, deduplicated), if a node's run procedure was
executed ("ran"), then every one of its declared upstream instances is
complete — the scheduler permits execution of a dependent only after all of
its upstream instances are complete. -/
theorem c2_run_requires_complete_upstreams (g : List GNode) (s : Store)
    (beh : TaskInstance → Bool) (dn : GNode)
    (htopo : topoOK [] g = true) (hndup : (instsOf g).Nodup) (hdn : dn ∈ g)
    (hran : (dn.inst, NodeStatus.ran) ∈ (execGraph beh g s).2.1) :
    ∀ u ∈ dn.deps, ∀ un ∈ g, un.inst = u →
      nodeComplete (execGraph beh g s).1 un = true := by
  intro u hu un hun huninst
  have hnotc : u ∉ (execGraph beh g s).2.2 := by
    unfold execGraph at hran ⊢
    exact exec_ran_deps_not_cone beh htopo hndup hdn g [] s [] [] rfl
      (by simp) (by simp) hran u hu
  have hfate := exec_all_fate (g := g) beh g [] s [] [] rfl (by simp) un hun
  unfold execGraph
  rcases hfate with h | h
  · exact absurd (huninst ▸ h) hnotc
  · exact h

/-- Witness for the amended C2: in the graph U -> D over an empty store with
all run procedures succeeding, D ran, and afterwards its upstream U is
complete. -/
theorem c2_run_requires_complete_upstreams_witness :
    nodeComplete
      (execGraph (fun _ => true)
        [⟨⟨"U", []⟩, [], ["u"]⟩, ⟨⟨"D", []⟩, [⟨"U", []⟩], ["d"]⟩] []).1
      ⟨⟨"U", []⟩, [], ["u"]⟩ = true :=
  c2_run_requires_complete_upstreams
    [⟨⟨"U", []⟩, [], ["u"]⟩, ⟨⟨"D", []⟩, [⟨"U", []⟩], ["d"]⟩] []
    (fun _ => true) ⟨⟨"D", []⟩, [⟨"U", []⟩], ["d"]⟩
    (by decide) (by decide) (by decide) (by decide)
    ⟨"U", []⟩ (by decide) ⟨⟨"U", []⟩, [], ["u"]⟩ (by decide) (by decide)

/-! ### Claim C6: failure isolation -/

/-- Claim C6: if a node fails during a pass over a resolved graph, then
(i) no transitive downstream dependent of it is ever started in that pass
(none records "ran"), (ii) every such dependent that was incomplete before
the pass is still incomplete after it, and (iii) every node that neither is
nor depends on any failed node is still scheduled normally: it records
"already complete" or "ran" — never "skipped due to upstream failure". -/
theorem c6_failure_isolation (g : List GNode) (s : Store)
    (beh : TaskInstance → Bool) (nf : TaskInstance)
    (htopo : topoOK [] g = true) (hndup : (instsOf g).Nodup)
    (hfail : (nf, NodeStatus.failed) ∈ (execGraph beh g s).2.1) :
    (∀ d : TaskInstance, DescendsB g nf d = true →
      (d, NodeStatus.ran) ∉ (execGraph beh g s).2.1) ∧
    (∀ dn ∈ g, DescendsB g nf dn.inst = true → nodeComplete s dn = false →
      nodeComplete (execGraph beh g s).1 dn = false) ∧
    (∀ mn ∈ g,
      (∀ f, (f, NodeStatus.failed) ∈ (execGraph beh g s).2.1 →
        f ≠ mn.inst ∧ DescendsB g f mn.inst = false) →
      ∃ st, (mn.inst, st) ∈ (execGraph beh g s).2.1 ∧
        (st = NodeStatus.alreadyComplete ∨ st = NodeStatus.ran)) := by
  have hnfcone : nf ∈ (execGraph beh g s).2.2 := by
    unfold execGraph at hfail ⊢
    rcases exec_bad_status_in_cone beh g s [] [] nf NodeStatus.failed
      (Or.inl rfl) hfail with h | h
    · cases h
    · exact h
  have hclosed : ∀ u ∈ (execGraph beh g s).2.2, ∀ mn ∈ g, u ∈ mn.deps →
      mn.inst ∈ (execGraph beh g s).2.2 := by
    unfold execGraph
    exact exec_cone_closed beh htopo hndup g [] s [] [] rfl (by simp) (by simp)
  have hdesc_cone : ∀ d : TaskInstance, DescendsB g nf d = true →
      d ∈ (execGraph beh g s).2.2 := by
    intro d hd
    exact descFuel_absorb hclosed hnfcone hd
  have hranNot : ∀ x, (x, NodeStatus.ran) ∈ (execGraph beh g s).2.1 →
      x ∉ (execGraph beh g s).2.2 := by
    unfold execGraph
    intro x hx
    exact exec_ran_not_in_cone beh hndup g [] s [] [] rfl (by simp)
      (by intro z hz; cases hz) x hx
  refine ⟨?_, ?_, ?_⟩
  · intro d hd hmem
    exact hranNot d hmem (hdesc_cone d hd)
  · intro dn hdn hd hinc
    rw [Bool.eq_false_iff] at hinc ⊢
    intro hcomp
    apply hinc
    simp only [nodeComplete, List.all_eq_true] at hcomp ⊢
    intro o ho
    rcases exec_new_store_ran beh g s [] [] ⟨dn.inst, o⟩ (by
      unfold execGraph at hcomp
      exact hcomp o ho) with h | h
    · exact h
    · exfalso
      exact hranNot dn.inst (by unfold execGraph; exact h) (hdesc_cone dn.inst hd)
  · intro mn hmn hsafe
    rcases exec_rcd_entry beh g s [] [] mn hmn with ⟨st, hst⟩
    have hst' : (mn.inst, st) ∈ (execGraph beh g s).2.1 := hst
    cases st with
    | alreadyComplete => exact ⟨_, hst', Or.inl rfl⟩
    | ran => exact ⟨_, hst', Or.inr rfl⟩
    | failed =>
      exact absurd rfl (hsafe mn.inst hst').1
    | skippedUpstreamFailed =>
      exfalso
      have hmcone : mn.inst ∈ (execGraph beh g s).2.2 := by
        unfold execGraph at hst' ⊢
        rcases exec_bad_status_in_cone beh g s [] [] mn.inst
          NodeStatus.skippedUpstreamFailed (Or.inr rfl) hst' with h | h
        · cases h
        · exact h
      rcases exec_cone_sound (g := g) beh g [] s [] [] rfl (by simp)
        mn.inst hmcone with ⟨f, hf, hd⟩
      rcases hsafe f hf with ⟨hne, hnd2⟩
      rcases hd with hd | hd
      · exact hne hd.symm
      · rw [Bool.eq_false_iff] at hnd2
        exact hnd2 hd

/-- Witness for C6 on the graph A -> B together with an independent node C,
where A's run procedure fails: B is skipped (never "ran") and C still runs. -/
theorem c6_failure_isolation_witness :
    ((⟨"A", []⟩ : TaskInstance), NodeStatus.failed) ∈
      (execGraph (fun t => !(decide (t.name = "A")))
        [⟨⟨"A", []⟩, [], ["a"]⟩, ⟨⟨"B", []⟩, [⟨"A", []⟩], ["b"]⟩,
          ⟨⟨"C", []⟩, [], ["c"]⟩] []).2.1 ∧
    ((⟨"B", []⟩ : TaskInstance), NodeStatus.ran) ∉
      (execGraph (fun t => !(decide (t.name = "A")))
        [⟨⟨"A", []⟩, [], ["a"]⟩, ⟨⟨"B", []⟩, [⟨"A", []⟩], ["b"]⟩,
          ⟨⟨"C", []⟩, [], ["c"]⟩] []).2.1 :=
  ⟨by decide,
    (c6_failure_isolation
      [⟨⟨"A", []⟩, [], ["a"]⟩, ⟨⟨"B", []⟩, [⟨"A", []⟩], ["b"]⟩,
        ⟨⟨"C", []⟩, [], ["c"]⟩] []
      (fun t => !(decide (t.name = "A"))) ⟨"A", []⟩
      (by decide) (by decide) (by decide)).1 ⟨"B", []⟩ (by decide)⟩

/-! ### Claim C8: preview is pure and reports per-node satisfaction -/

/-- Claim C8: for every graph and store, preview leaves the store unchanged
(and, having no run-procedure argument, executes none), and its report lists
every node of the graph in graph (topological) order together with whether it
is already satisfied (true) or pending (false). -/
theorem c8_preview_pure (g : List GNode) (s : Store) :
    (preview g s).1 = s ∧
    (preview g s).2 = g.map (fun n => (n.inst, nodeComplete s n)) := by
  unfold preview
  rw [previewAux_spec]
  simp

/-! ### The Dependency Resolver (spec section 4.1) -/

/-- Modelled from the spec: a Task Definition — a name, an ordered set of
typed parameters (serialized values; each with an optional default), declared
upstream task definitions, and declared output names (section 3). -/
structure TaskDef where
  name : String
  params : List (String × Option String)
  deps : List String
  outputs : List String
deriving DecidableEq

/-- Modelled from the spec: a parameter binding (a Strategy Binding applied
to the root, propagated through the graph — parameters of upstream instances
are inherited from the same binding, section 3 "Dependency Edge"). -/
abbrev Binding := List (String × String)

/-- Modelled from the spec: the two resolution-time error kinds
(section 7). -/
inductive ResolveError where
  | cyclicDependencyError
  | unboundParameterError (task param : String)
deriving DecidableEq

def defsLookup (defs : List TaskDef) (n : String) : Option TaskDef :=
  defs.find? (fun d => decide (d.name = n))

def lookupB (b : Binding) (p : String) : Option String :=
  (b.find? (fun q => decide (q.1 = p))).map Prod.snd

/-- Modelled from the spec: a required parameter takes its bound value, else
its default, else resolution fails with UnboundParameterError (section 4.1). -/
def bindParam (tname : String) (b : Binding) (pd : String × Option String) :
    Except ResolveError (String × String) :=
  match lookupB b pd.1 with
  | some v => .ok (pd.1, v)
  | none =>
    match pd.2 with
    | some v => .ok (pd.1, v)
    | none => .error (.unboundParameterError tname pd.1)

def bindParams (tname : String) (b : Binding) :
    List (String × Option String) → Except ResolveError (List (String × String))
  | [] => .ok []
  | pd :: rest =>
    match bindParam tname b pd with
    | .error e => .error e
    | .ok p =>
      match bindParams tname b rest with
      | .error e => .error e
      | .ok ps => .ok (p :: ps)

/-- Modelled from the spec: instantiating a Task Definition under a binding
yields the Task Instance identity (name, parameter-name to value mapping).
A reference to an unknown definition also aborts resolution. -/
def instantiate (defs : List TaskDef) (b : Binding) (n : String) :
    Except ResolveError TaskInstance :=
  match defsLookup defs n with
  | none => .error (.unboundParameterError n "")
  | some ud =>
    match bindParams n b ud.params with
    | .error e => .error e
    | .ok ps => .ok ⟨n, ps⟩

def instList (defs : List TaskDef) (b : Binding) :
    List String → Except ResolveError (List TaskInstance)
  | [] => .ok []
  | n :: rest =>
    match instantiate defs b n with
    | .error e => .error e
    | .ok i =>
      match instList defs b rest with
      | .error e => .error e
      | .ok is2 => .ok (i :: is2)

def depsWithDefs (defs : List TaskDef) (n : String) : List String :=
  match defsLookup defs n with
  | none => []
  | some ud => ud.deps.filter (fun d => (defsLookup defs d).isSome)

/-- Transitive closure of definition names reachable from the frontier (the
dependency closure is over definitions, so it is independent of the
parameter binding — this is what lets two strategies share upstream
subgraphs). -/
def reachAux (defs : List TaskDef) : Nat → List String → List String → List String
  | 0, acc, _ => acc
  | _, acc, [] => acc
  | fuel + 1, acc, f :: frontier =>
    if f ∈ acc then reachAux defs fuel acc frontier
    else if (defsLookup defs f).isSome then
      reachAux defs fuel (acc ++ [f]) (frontier ++ depsWithDefs defs f)
    else reachAux defs fuel acc frontier

def reachFuel (defs : List TaskDef) : Nat :=
  (defs.length + 1) * (defs.foldl (fun a d => a + d.deps.length + 1) 1 + 1)

/-- Node deduplication (section 4.1): structurally identical instances
collapse, so the reachable definition names are deduplicated. -/
def reachNames (defs : List TaskDef) (root : String) : List String :=
  (reachAux defs (reachFuel defs) [] [root]).dedup

/-- Select a definition all of whose (known) dependencies are already
placed. -/
def pickReady (defs : List TaskDef) (placed : List String) :
    List String → Option (String × List String)
  | [] => none
  | n :: rest =>
    if (depsWithDefs defs n).all (fun d => decide (d ∈ placed)) then some (n, rest)
    else
      match pickReady defs placed rest with
      | none => none
      | some (m, rest2) => some (m, n :: rest2)

/-- Modelled from the spec: topological ordering of the dependency closure;
when no definition can be placed the closure is not acyclic and resolution
fails with CyclicDependencyError (section 4.1). -/
def topoAux (defs : List TaskDef) :
    Nat → List String → List String → Except ResolveError (List String)
  | _, placed, [] => .ok placed.reverse
  | 0, _, _ => .error .cyclicDependencyError
  | fuel + 1, placed, remaining =>
    match pickReady defs placed remaining with
    | none => .error .cyclicDependencyError
    | some (n, rest) => topoAux defs fuel (n :: placed) rest

def resolveNames (defs : List TaskDef) (root : String) :
    Except ResolveError (List String) :=
  topoAux defs (reachNames defs root).length [] (reachNames defs root)

/-- Build the graph node of one definition: its instance, the instances of
its declared upstream definitions (parameter inheritance through the shared
binding), and its declared outputs. -/
def instNode (defs : List TaskDef) (b : Binding) (n : String) :
    Except ResolveError GNode :=
  match defsLookup defs n with
  | none => .error (.unboundParameterError n "")
  | some ud =>
    match instantiate defs b n with
    | .error e => .error e
    | .ok i =>
      match instList defs b ud.deps with
      | .error e => .error e
      | .ok ds => .ok ⟨i, ds, ud.outputs⟩

def instNodes (defs : List TaskDef) (b : Binding) :
    List String → Except ResolveError (List GNode)
  | [] => .ok []
  | n :: rest =>
    match instNode defs b n with
    | .error e => .error e
    | .ok node =>
      match instNodes defs b rest with
      | .error e => .error e
      | .ok nodes => .ok (node :: nodes)

/-- Modelled from the spec: the Dependency Resolver (section 4.1) — expand
the root definition into the topologically ordered, deduplicated graph of
Task Instances, failing with CyclicDependencyError or
UnboundParameterError. -/
def resolve (defs : List TaskDef) (root : String) (b : Binding) :
    Except ResolveError (List GNode) :=
  match resolveNames defs root with
  | .error e => .error e
  | .ok names => instNodes defs b names

/-- Modelled from the spec: a run invocation first resolves, then executes;
a resolution error aborts before anything runs and leaves the store as it
was (sections 4.3 and 7). -/
def runFlow (defs : List TaskDef) (root : String) (b : Binding)
    (beh : TaskInstance → Bool) (s : Store) :
    Store × Except ResolveError RunRecord :=
  match resolve defs root b with
  | .error e => (s, .error e)
  | .ok g => ((execGraph beh g s).1, .ok (execGraph beh g s).2.1)

/-! ### Claim C7: resolution errors abort the run -/

/-- Claim C7: whenever resolution fails (CyclicDependencyError on a cyclic
closure, UnboundParameterError on a missing required parameter), the whole
run invocation aborts with that error before any node's run procedure
executes: the resulting store is exactly the input store, unchanged, for
every run-procedure behaviour. -/
theorem c7_resolution_error_aborts (defs : List TaskDef) (root : String)
    (b : Binding) (beh : TaskInstance → Bool) (s : Store) (e : ResolveError)
    (h : resolve defs root b = .error e) :
    runFlow defs root b beh s = (s, .error e) := by
  simp [runFlow, h]

/-- Witness for C7: a cyclic pair of definitions resolves to
CyclicDependencyError and running it returns the store untouched; a
definition with a defaultless unbound parameter resolves to
UnboundParameterError. -/
theorem c7_resolution_error_aborts_witness :
    resolve [⟨"A", [], ["B"], ["a"]⟩, ⟨"B", [], ["A"], ["b"]⟩] "A" [] =
      .error .cyclicDependencyError ∧
    runFlow [⟨"A", [], ["B"], ["a"]⟩, ⟨"B", [], ["A"], ["b"]⟩] "A" []
      (fun _ => true) [⟨⟨⟨"X", []⟩, "x"⟩, true⟩] =
      ([⟨⟨⟨"X", []⟩, "x"⟩, true⟩], .error .cyclicDependencyError) ∧
    resolve [⟨"G", [("d", none)], [], ["data"]⟩] "G" [] =
      .error (.unboundParameterError "G" "d") :=
  ⟨rfl,
    c7_resolution_error_aborts [⟨"A", [], ["B"], ["a"]⟩, ⟨"B", [], ["A"], ["b"]⟩]
      "A" [] (fun _ => true) [⟨⟨⟨"X", []⟩, "x"⟩, true⟩] .cyclicDependencyError rfl,
    rfl⟩

/-! ### Resolver lemmas -/

theorem instantiate_name {defs : List TaskDef} {b : Binding} {n : String}
    {i : TaskInstance} (h : instantiate defs b n = .ok i) : i.name = n := by
  unfold instantiate at h
  cases hd : defsLookup defs n with
  | none => simp only [hd] at h; simp at h
  | some ud =>
    simp only [hd] at h
    cases hb : bindParams n b ud.params with
    | error e => simp only [hb] at h; simp at h
    | ok ps =>
      simp only [hb] at h
      simp only [Except.ok.injEq] at h
      rw [← h]

theorem instNode_ok {defs : List TaskDef} {b : Binding} {n : String}
    {node : GNode} (h : instNode defs b n = .ok node) :
    ∃ ud, defsLookup defs n = some ud ∧
      instantiate defs b n = .ok node.inst ∧ node.outputs = ud.outputs := by
  unfold instNode at h
  cases hd : defsLookup defs n with
  | none => simp only [hd] at h; simp at h
  | some ud =>
    simp only [hd] at h
    cases hi : instantiate defs b n with
    | error e => simp only [hi] at h; simp at h
    | ok i =>
      simp only [hi] at h
      cases hl : instList defs b ud.deps with
      | error e => simp only [hl] at h; simp at h
      | ok ds =>
        simp only [hl] at h
        simp only [Except.ok.injEq] at h
        refine ⟨ud, rfl, ?_, ?_⟩
        · rw [← h]
        · rw [← h]

theorem instNodes_mem {defs : List TaskDef} {b : Binding} :
    ∀ {names : List String} {g : List GNode},
      instNodes defs b names = .ok g →
      ∀ node ∈ g, ∃ n ∈ names, instNode defs b n = .ok node := by
  intro names
  induction names with
  | nil =>
    intro g h node hn
    simp only [instNodes, Except.ok.injEq] at h
    rw [← h] at hn
    cases hn
  | cons n rest ih =>
    intro g h node hn
    unfold instNodes at h
    cases hd : instNode defs b n with
    | error e => simp only [hd] at h; simp at h
    | ok nd =>
      simp only [hd] at h
      cases hr : instNodes defs b rest with
      | error e => simp only [hr] at h; simp at h
      | ok nodes =>
        simp only [hr] at h
        simp only [Except.ok.injEq] at h
        rw [← h] at hn
        rcases List.mem_cons.mp hn with rfl | hn2
        · exact ⟨n, List.mem_cons_self _ _, hd⟩
        · rcases ih hr node hn2 with ⟨m, hm, hmok⟩
          exact ⟨m, List.mem_cons_of_mem _ hm, hmok⟩

theorem instNodes_mem_rev {defs : List TaskDef} {b : Binding} :
    ∀ {names : List String} {g : List GNode},
      instNodes defs b names = .ok g →
      ∀ n ∈ names, ∃ node ∈ g, instNode defs b n = .ok node := by
  intro names
  induction names with
  | nil => intro g _ n hn; cases hn
  | cons m rest ih =>
    intro g h n hn
    unfold instNodes at h
    cases hd : instNode defs b m with
    | error e => simp only [hd] at h; simp at h
    | ok nd =>
      simp only [hd] at h
      cases hr : instNodes defs b rest with
      | error e => simp only [hr] at h; simp at h
      | ok nodes =>
        simp only [hr] at h
        simp only [Except.ok.injEq] at h
        rcases List.mem_cons.mp hn with rfl | hn2
        · exact ⟨nd, by rw [← h]; exact List.mem_cons_self _ _, hd⟩
        · rcases ih hr n hn2 with ⟨node, hnode, hok⟩
          exact ⟨node, by rw [← h]; exact List.mem_cons_of_mem _ hnode, hok⟩

theorem instNodes_names {defs : List TaskDef} {b : Binding} :
    ∀ {names : List String} {g : List GNode},
      instNodes defs b names = .ok g →
      (instsOf g).map TaskInstance.name = names := by
  intro names
  induction names with
  | nil =>
    intro g h
    simp only [instNodes, Except.ok.injEq] at h
    rw [← h]
    rfl
  | cons n rest ih =>
    intro g h
    unfold instNodes at h
    cases hd : instNode defs b n with
    | error e => simp only [hd] at h; simp at h
    | ok nd =>
      simp only [hd] at h
      cases hr : instNodes defs b rest with
      | error e => simp only [hr] at h; simp at h
      | ok nodes =>
        simp only [hr] at h
        simp only [Except.ok.injEq] at h
        rw [← h]
        rcases instNode_ok hd with ⟨ud, _, hi, _⟩
        have hname : nd.inst.name = n := instantiate_name hi
        simp only [instsOf, List.map_cons, hname, List.cons.injEq, true_and]
        exact ih hr

theorem resolve_ok_parts {defs : List TaskDef} {root : String} {b : Binding}
    {g : List GNode} (h : resolve defs root b = .ok g) :
    ∃ names, resolveNames defs root = .ok names ∧ instNodes defs b names = .ok g := by
  unfold resolve at h
  cases hr : resolveNames defs root with
  | error e => simp only [hr] at h; simp at h
  | ok names =>
    simp only [hr] at h
    exact ⟨names, rfl, h⟩

theorem pickReady_perm (defs : List TaskDef) (placed : List String) :
    ∀ (l : List String) (n : String) (rest : List String),
      pickReady defs placed l = some (n, rest) → l.Perm (n :: rest) := by
  intro l
  induction l with
  | nil => intro n rest h; simp [pickReady] at h
  | cons m ms ih =>
    intro n rest h
    unfold pickReady at h
    by_cases hc : (depsWithDefs defs m).all (fun d => decide (d ∈ placed)) = true
    · rw [if_pos hc] at h
      simp only [Option.some.injEq, Prod.mk.injEq] at h
      rw [← h.1, ← h.2]
    · rw [if_neg hc] at h
      cases hp : pickReady defs placed ms with
      | none => simp only [hp] at h; simp at h
      | some pr =>
        obtain ⟨n2, rest2⟩ := pr
        simp only [hp] at h
        simp only [Option.some.injEq, Prod.mk.injEq] at h
        obtain ⟨h1, h2⟩ := h
        rw [← h2, ← h1]
        exact (List.Perm.cons m (ih n2 rest2 hp)).trans (List.Perm.swap n2 m rest2)

theorem topoAux_nodup (defs : List TaskDef) :
    ∀ (fuel : Nat) (placed remaining : List String),
      (placed ++ remaining).Nodup →
      ∀ out, topoAux defs fuel placed remaining = .ok out → out.Nodup := by
  intro fuel
  induction fuel with
  | zero =>
    intro placed remaining hnd out h
    cases remaining with
    | nil =>
      simp only [topoAux, Except.ok.injEq] at h
      rw [← h, List.nodup_reverse]
      simpa using hnd
    | cons r rs => simp [topoAux] at h
  | succ fuel ih =>
    intro placed remaining hnd out h
    cases remaining with
    | nil =>
      simp only [topoAux, Except.ok.injEq] at h
      rw [← h, List.nodup_reverse]
      simpa using hnd
    | cons r rs =>
      unfold topoAux at h
      cases hp : pickReady defs placed (r :: rs) with
      | none => simp only [hp] at h; simp at h
      | some pr =>
        obtain ⟨n, rest⟩ := pr
        simp only [hp] at h
        refine ih (n :: placed) rest ?_ out h
        have h1 : (placed ++ r :: rs).Perm (placed ++ n :: rest) :=
          List.Perm.append_left _ (pickReady_perm defs placed _ n rest hp)
        have h2 : (placed ++ n :: rest).Perm (n :: (placed ++ rest)) :=
          List.perm_middle
        exact (h1.trans h2).nodup hnd

theorem resolveNames_nodup {defs : List TaskDef} {root : String}
    {names : List String} (h : resolveNames defs root = .ok names) :
    names.Nodup := by
  unfold resolveNames at h
  refine topoAux_nodup defs _ [] (reachNames defs root) ?_ names h
  simpa [reachNames] using List.nodup_dedup _

theorem resolve_nodup {defs : List TaskDef} {root : String} {b : Binding}
    {g : List GNode} (h : resolve defs root b = .ok g) :
    (instsOf g).Nodup := by
  rcases resolve_ok_parts h with ⟨names, hn, hg⟩
  have hmap : (instsOf g).map TaskInstance.name = names := instNodes_names hg
  have : ((instsOf g).map TaskInstance.name).Nodup := by
    rw [hmap]
    exact resolveNames_nodup hn
  exact this.of_map _

theorem bindParams_agree {tname : String} {b1 b2 : Binding} :
    ∀ (pds : List (String × Option String)),
      (∀ p ∈ pds.map Prod.fst, lookupB b1 p = lookupB b2 p) →
      bindParams tname b1 pds = bindParams tname b2 pds := by
  intro pds
  induction pds with
  | nil => intro _; rfl
  | cons pd rest ih =>
    intro hagree
    have h1 : bindParam tname b1 pd = bindParam tname b2 pd := by
      unfold bindParam
      rw [hagree pd.1 (by simp)]
    simp only [bindParams, h1, ih (fun p hp => hagree p (by simp [hp]))]

theorem instantiate_agree {defs : List TaskDef} {b1 b2 : Binding}
    {n : String} {ud : TaskDef} (hud : defsLookup defs n = some ud)
    (hagree : ∀ p ∈ ud.params.map Prod.fst, lookupB b1 p = lookupB b2 p) :
    instantiate defs b1 n = instantiate defs b2 n := by
  unfold instantiate
  simp only [hud]
  rw [bindParams_agree ud.params hagree]

/-! ### Run-count lemmas for the executor -/

theorem depBlocked_nil (n : GNode) : depBlocked [] n = false := by
  simp [depBlocked]

theorem ranCount_append (r1 r2 : RunRecord) (i : TaskInstance) :
    ranCount (r1 ++ r2) i = ranCount r1 i + ranCount r2 i := by
  simp [ranCount, List.filter_append]

theorem execAux_cons_already_nil (beh : TaskInstance → Bool) (nd : GNode)
    (rest : List GNode) (s : Store) (rcd : RunRecord)
    (hc : nodeComplete s nd = true) :
    execAux beh (nd :: rest) s rcd [] =
      execAux beh rest s (rcd ++ [(nd.inst, .alreadyComplete)]) [] := by
  simp only [execAux, hc, if_true, depBlocked_nil, Bool.false_eq_true, if_false]

theorem execAux_cons_ran_nil (beh : TaskInstance → Bool) (nd : GNode)
    (rest : List GNode) (s : Store) (rcd : RunRecord)
    (hc : nodeComplete s nd = false) (hbe : beh nd.inst = true) :
    execAux beh (nd :: rest) s rcd [] =
      execAux beh rest (writeOutputs s nd) (rcd ++ [(nd.inst, .ran)]) [] := by
  simp only [execAux, hc, Bool.false_eq_true, if_false, depBlocked_nil, hbe, if_true]

theorem exec_count_noi (beh : TaskInstance → Bool) (i : TaskInstance) :
    ∀ (l : List GNode) (s : Store) (rcd : RunRecord) (cone : List TaskInstance),
      (∀ nd ∈ l, nd.inst ≠ i) →
      ranCount (execAux beh l s rcd cone).2.1 i = ranCount rcd i := by
  intro l
  induction l with
  | nil => intro s rcd cone _; simp [execAux]
  | cons nd rest ih =>
    intro s rcd cone hno
    have hni : nd.inst ≠ i := hno nd (List.mem_cons_self _ _)
    have hcount : ∀ st : NodeStatus,
        ranCount (rcd ++ [(nd.inst, st)]) i = ranCount rcd i := by
      intro st
      rw [ranCount_append]
      simp [ranCount, hni]
    have hrest : ∀ m ∈ rest, m.inst ≠ i := fun m hm => hno m (List.mem_cons_of_mem _ hm)
    rcases execAux_branches beh nd rest s rcd cone with
      ⟨_, he⟩ | ⟨_, _, he⟩ | ⟨_, _, _, he⟩ | ⟨_, _, _, he⟩ <;> rw [he]
    all_goals rw [ih _ _ _ hrest, hcount]

theorem exec_count_complete_zero (beh : TaskInstance → Bool) (i : TaskInstance) :
    ∀ (l : List GNode) (s : Store) (rcd : RunRecord) (cone : List TaskInstance),
      (∀ nd ∈ l, nd.inst = i → nodeComplete s nd = true) →
      ranCount (execAux beh l s rcd cone).2.1 i = ranCount rcd i := by
  intro l
  induction l with
  | nil => intro s rcd cone _; simp [execAux]
  | cons nd rest ih =>
    intro s rcd cone hcomp
    have hkeep : ∀ (s' : Store), (∀ k, storeExists s k = true → storeExists s' k = true) →
        ∀ m ∈ rest, m.inst = i → nodeComplete s' m = true := by
      intro s' hmono m hm hmi
      exact nodeComplete_mono hmono (hcomp m (List.mem_cons_of_mem _ hm) hmi)
    by_cases hni : nd.inst = i
    · have hc : nodeComplete s nd = true := hcomp nd (List.mem_cons_self _ _) hni
      rcases execAux_branches beh nd rest s rcd cone with
        ⟨_, he⟩ | ⟨h1, _, _⟩ | ⟨h1, _, _, _⟩ | ⟨h1, _, _, _⟩
      · rw [he, ih _ _ _ (hkeep s (fun k hk => hk)), ranCount_append]
        simp [ranCount]
      · rw [hc] at h1; cases h1
      · rw [hc] at h1; cases h1
      · rw [hc] at h1; cases h1
    · have hcount : ∀ st : NodeStatus,
          ranCount (rcd ++ [(nd.inst, st)]) i = ranCount rcd i := by
        intro st
        rw [ranCount_append]
        simp [ranCount, hni]
      rcases execAux_branches beh nd rest s rcd cone with
        ⟨_, he⟩ | ⟨_, _, he⟩ | ⟨_, _, _, he⟩ | ⟨_, _, _, he⟩ <;> rw [he]
      · rw [ih _ _ _ (hkeep s (fun k hk => hk)), hcount]
      · rw [ih _ _ _ (hkeep s (fun k hk => hk)), hcount]
      · rw [ih _ _ _ (hkeep _ (fun k hk => storeExists_writeOutputs_mono nd hk)), hcount]
      · rw [ih _ _ _ (hkeep s (fun k hk => hk)), hcount]

theorem exec_count_ran_once (beh : TaskInstance → Bool) (hbeh : ∀ x, beh x = true) :
    ∀ (l : List GNode) (s : Store) (rcd : RunRecord) (n1 : GNode),
      n1 ∈ l → (instsOf l).Nodup → nodeComplete s n1 = false →
      ranCount (execAux beh l s rcd []).2.1 n1.inst = ranCount rcd n1.inst + 1 ∧
      nodeComplete (execAux beh l s rcd []).1 n1 = true := by
  intro l
  induction l with
  | nil => intro s rcd n1 h; cases h
  | cons nd rest ih =>
    intro s rcd n1 hmem hnd hinc
    have hndrest : (instsOf rest).Nodup ∧ nd.inst ∉ instsOf rest := by
      have hre : instsOf (nd :: rest) = nd.inst :: instsOf rest := by simp [instsOf]
      rw [hre] at hnd
      exact ⟨(List.nodup_cons.mp hnd).2, (List.nodup_cons.mp hnd).1⟩
    rcases List.mem_cons.mp hmem with rfl | hmem2
    · rw [execAux_cons_ran_nil beh n1 rest s rcd hinc (hbeh n1.inst)]
      have hnoi : ∀ m ∈ rest, m.inst ≠ n1.inst := by
        intro m hm heq
        exact hndrest.2 (heq ▸ List.mem_map_of_mem GNode.inst hm)
      constructor
      · rw [exec_count_noi beh n1.inst rest _ _ _ hnoi, ranCount_append]
        simp [ranCount]
      · exact exec_nodeComplete_mono beh rest _ _ _ (nodeComplete_writeOutputs_self s n1)
    · have hne : nd.inst ≠ n1.inst := by
        intro heq
        exact hndrest.2 (heq ▸ List.mem_map_of_mem GNode.inst hmem2)
      have hcount : ∀ st : NodeStatus,
          ranCount (rcd ++ [(nd.inst, st)]) n1.inst = ranCount rcd n1.inst := by
        intro st
        rw [ranCount_append]
        simp [ranCount, hne]
      by_cases hc : nodeComplete s nd = true
      · rw [execAux_cons_already_nil beh nd rest s rcd hc]
        rcases ih s _ n1 hmem2 hndrest.1 hinc with ⟨hcnt, hcmp⟩
        exact ⟨by rw [hcnt, hcount], hcmp⟩
      · replace hc := Bool.not_eq_true _ ▸ hc
        rw [execAux_cons_ran_nil beh nd rest s rcd hc (hbeh nd.inst)]
        have hinc2 : nodeComplete (writeOutputs s nd) n1 = false := by
          rw [nodeComplete_ext (fun o _ => storeExists_writeOutputs_other nd hne.symm)]
          exact hinc
        rcases ih (writeOutputs s nd) _ n1 hmem2 hndrest.1 hinc2 with ⟨hcnt, hcmp⟩
        exact ⟨by rw [hcnt, hcount], hcmp⟩

/-! ### Claim C4: shared upstream subgraphs run exactly once -/

/-- Claim C4: resolve the same root under two strategy bindings that agree on
every parameter declared by an upstream definition (they differ only in
downstream parameters).  The resolved instances are deduplicated, the
upstream's instance is the same node in both graphs, and across the two
strategy runs (second run over the store produced by the first) the shared
upstream's run procedure executes exactly once in total. -/
theorem c4_shared_upstream_runs_once
    (defs : List TaskDef) (root uName : String) (b1 b2 : Binding) (ud : TaskDef)
    (g1 g2 : List GNode) (n1 : GNode) (s0 : Store) (beh : TaskInstance → Bool)
    (h1 : resolve defs root b1 = .ok g1) (h2 : resolve defs root b2 = .ok g2)
    (hud : defsLookup defs uName = some ud)
    (hagree : ∀ p ∈ ud.params.map Prod.fst, lookupB b1 p = lookupB b2 p)
    (hn1 : n1 ∈ g1) (hn1i : n1.inst.name = uName)
    (hinc : nodeComplete s0 n1 = false)
    (hbeh : ∀ x, beh x = true) :
    (instsOf g1).Nodup ∧
    (∃ n2 ∈ g2, n2.inst = n1.inst) ∧
    ranCount (execGraph beh g1 s0).2.1 n1.inst +
      ranCount (execGraph beh g2 (execGraph beh g1 s0).1).2.1 n1.inst = 1 := by
  rcases resolve_ok_parts h1 with ⟨names1, hrn1, hin1⟩
  rcases resolve_ok_parts h2 with ⟨names2, hrn2, hin2⟩
  have hnameseq : names1 = names2 := by
    rw [hrn1] at hrn2
    exact Except.ok.inj hrn2
  subst hnameseq
  obtain ⟨n0, hn0mem, hn0ok⟩ := instNodes_mem hin1 n1 hn1
  obtain ⟨ud1, hud1, hi1, hout1⟩ := instNode_ok hn0ok
  have hn0 : n0 = uName := by
    rw [← instantiate_name hi1]
    exact hn1i
  rw [hn0] at hn0mem hn0ok hud1 hi1
  have hudeq : ud1 = ud := by
    rw [hud] at hud1
    exact (Option.some.inj hud1).symm
  have hagree2 : instantiate defs b1 uName = instantiate defs b2 uName :=
    instantiate_agree hud hagree
  obtain ⟨node2, hnode2mem, hnode2ok⟩ := instNodes_mem_rev hin2 uName hn0mem
  obtain ⟨ud2, hud2, hi2, hout2⟩ := instNode_ok hnode2ok
  have hud2eq : ud2 = ud := by
    rw [hud] at hud2
    exact (Option.some.inj hud2).symm
  have hinst2 : node2.inst = n1.inst := by
    rw [← hagree2, hi1] at hi2
    exact (Except.ok.inj hi2).symm
  have houteq : node2.outputs = n1.outputs := by
    rw [hout2, hud2eq, ← hudeq, ← hout1]
  have hnd1 : (instsOf g1).Nodup := resolve_nodup h1
  have hnd2 : (instsOf g2).Nodup := resolve_nodup h2
  refine ⟨hnd1, ⟨node2, hnode2mem, hinst2⟩, ?_⟩
  have hpass1 := exec_count_ran_once beh hbeh g1 s0 [] n1 hn1 hnd1 hinc
  have hcomp2 : ∀ nd ∈ g2, nd.inst = n1.inst →
      nodeComplete (execAux beh g1 s0 [] []).1 nd = true := by
    intro nd hndm hndi
    have hsame : nd = node2 := inst_unique hnd2 hndm hnode2mem (by rw [hndi, ← hinst2])
    subst hsame
    rw [nodeComplete_congr hinst2 houteq]
    exact hpass1.2
  have hpass2 := exec_count_complete_zero beh n1.inst g2
    (execAux beh g1 s0 [] []).1 [] [] hcomp2
  simp only [execGraph]
  rw [hpass1.1, hpass2]
  simp [ranCount]

/-- Witness for C4: definitions G (no parameters) and T (parameter p,
depends on G), resolved under p=1 and p=2; across the two runs the shared
upstream instance G executes exactly once. -/
theorem c4_shared_upstream_runs_once_witness :
    ranCount (execGraph (fun _ => true)
      [⟨⟨"G", []⟩, [], ["gd"]⟩, ⟨⟨"T", [("p", "1")]⟩, [⟨"G", []⟩], ["td"]⟩] []).2.1
      ⟨"G", []⟩ +
    ranCount (execGraph (fun _ => true)
      [⟨⟨"G", []⟩, [], ["gd"]⟩, ⟨⟨"T", [("p", "2")]⟩, [⟨"G", []⟩], ["td"]⟩]
      (execGraph (fun _ => true)
        [⟨⟨"G", []⟩, [], ["gd"]⟩, ⟨⟨"T", [("p", "1")]⟩, [⟨"G", []⟩], ["td"]⟩] []).1).2.1
      ⟨"G", []⟩ = 1 :=
  (c4_shared_upstream_runs_once
    [⟨"G", [], [], ["gd"]⟩, ⟨"T", [("p", none)], ["G"], ["td"]⟩] "T" "G"
    [("p", "1")] [("p", "2")] ⟨"G", [], [], ["gd"]⟩
    [⟨⟨"G", []⟩, [], ["gd"]⟩, ⟨⟨"T", [("p", "1")]⟩, [⟨"G", []⟩], ["td"]⟩]
    [⟨⟨"G", []⟩, [], ["gd"]⟩, ⟨⟨"T", [("p", "2")]⟩, [⟨"G", []⟩], ["td"]⟩]
    ⟨⟨"G", []⟩, [], ["gd"]⟩ [] (fun _ => true)
    rfl rfl rfl (by decide) (by decide) rfl (by decide) (fun x => rfl)).2.2

/-! ### Code embedded from the notebooks under src/ -/

/-- The two model objects ModelTrain.run can construct
(src/example.ipynb: sklearn LinearRegression for 'ols',
GradientBoostingRegressor for 'gbm'). -/
inductive SkModel where
  | linearRegression
  | gradientBoostingRegressor
deriving DecidableEq

/-- Embedded from src/example.ipynb, ModelTrain.run: the model-selection
branch.  `if self.model=='ols'` picks LinearRegression, `elif
self.model=='gbm'` picks GradientBoostingRegressor, `else` raises
ValueError('invalid model selection'). -/
def modelTrainSelect (model : String) : Except String SkModel :=
  if model = "ols" then .ok .linearRegression
  else if model = "gbm" then .ok .gradientBoostingRegressor
  else .error "invalid model selection"

/-- Embedded from src/example.ipynb, ModelTrain.run: select the model (the
raise happens before the fit), then fit and persist the pickled model
(self.save) and its score metadata (self.saveMeta).  The store effect is
modelled by the artifact keys the saves write; an exception propagates
before any save executes. -/
def modelTrainRun (model : String) (inst : TaskInstance) (s : Store) :
    Except String Store :=
  match modelTrainSelect model with
  | .error e => .error e
  | .ok _fitted => .ok (storeWrite (storeWrite s ⟨inst, "data"⟩) ⟨inst, "meta"⟩)

/-- Embedded from src/example-trading.ipynb, TradingSignals.run: pandas
`df_gdp['CPGDPAI'].diff(lookback_period)` at row `i` — the difference with
the row `lookback_period` earlier, NaN (none) when that row is out of
range.  The float series is abstracted to any linearly ordered type with
subtraction and zero. -/
def pdDiffAt {α : Type} [Sub α] [Zero α] (k : Int) (xs : List α) (i : Nat) :
    Option α :=
  if 0 ≤ (i : Int) - k ∧ (i : Int) - k < (xs.length : Int) then
    some (xs.getD i 0 - xs.getD ((i : Int) - k).toNat 0)
  else none

/-- Embedded from src/example-trading.ipynb, TradingSignals.run:
`df_signal = (df_gdp['CPGDPAI'].diff(self.lookback_period)>0)` (NaN compares
false) followed by `df_signal['position'] = np.where(df_signal['position'],1,-1)`:
the resulting position column. -/
def tradingSignalsRun {α : Type} [LinearOrder α] [Sub α] [Zero α]
    (lookback : Int) (gdp : List α) : List Int :=
  (List.range gdp.length).map (fun i =>
    match pdDiffAt lookback gdp i with
    | some v => if 0 < v then 1 else -1
    | none => -1)

/-! ### Claim C9: invalid model selection raises before saving -/

/-- Claim C9: for every value of the model parameter outside
{'ols', 'gbm'}, ModelTrain.run raises ValueError('invalid model selection')
before fitting or saving, so no ModelTrain artifact is ever produced for
such a parameter value. -/
theorem c9_invalid_model (model : String) (inst : TaskInstance) (s : Store)
    (h1 : model ≠ "ols") (h2 : model ≠ "gbm") :
    modelTrainRun model inst s = .error "invalid model selection" ∧
    ∀ s' : Store, modelTrainRun model inst s ≠ .ok s' := by
  have hsel : modelTrainSelect model = .error "invalid model selection" := by
    simp [modelTrainSelect, h1, h2]
  refine ⟨?_, ?_⟩
  · simp [modelTrainRun, hsel]
  · intro s' hcontra
    rw [modelTrainRun, hsel] at hcontra
    cases hcontra

/-- Witness for C9 at the concrete invalid selection 'xgb'. -/
theorem c9_invalid_model_witness :
    modelTrainRun "xgb" ⟨"ModelTrain", [("model", "xgb")]⟩ [] =
      .error "invalid model selection" :=
  (c9_invalid_model "xgb" ⟨"ModelTrain", [("model", "xgb")]⟩ []
    (by decide) (by decide)).1

/-! ### Claim C10: positions are always +1 or -1 -/

/-- Claim C10: every value in the position column computed by
TradingSignals.run is 1 or -1, for every input GDP series and every
lookback period. -/
theorem c10_position_values {α : Type} [LinearOrder α] [Sub α] [Zero α]
    (lookback : Int) (gdp : List α) (v : Int)
    (hv : v ∈ tradingSignalsRun lookback gdp) : v = 1 ∨ v = -1 := by
  unfold tradingSignalsRun at hv
  rcases List.mem_map.mp hv with ⟨i, _, hvi⟩
  rcases hval : pdDiffAt lookback gdp i with _ | w
  · simp only [hval] at hvi
    exact Or.inr hvi.symm
  · simp only [hval] at hvi
    by_cases hw : 0 < w
    · rw [if_pos hw] at hvi
      exact Or.inl hvi.symm
    · rw [if_neg hw] at hvi
      exact Or.inr hvi.symm

/-- Witness for C10 on the concrete series [0, 1] with lookback 1. -/
theorem c10_position_values_witness : (1 : Int) = 1 ∨ (1 : Int) = -1 :=
  c10_position_values (α := Int) 1 [0, 1] 1 (by decide)

end D6t
